import Mathlib

/-!
# Verification of the libjxl entropy-coding / ICC-codec core

Shallow embedding of the entropy-coding subsystem of the repository:
the ICC predictive codec (`src/lib/jxl/icc_codec.cc`), the Lehmer-code
permutation codec (`src/jxl/lehmer_code.h`), and the rANS token codec
exercised by `src/jxl/ans_test.cc`.  Machine integers are modelled as `Nat`
with explicit `% 2^w` where C++ overflow semantics matter; fallible code
returns `Except String`.
-/

namespace Jxl

/-! ## VarInt (`DecodeVarInt`, src/lib/jxl/icc_codec.cc lines 61-73)

`uint64_t DecodeVarInt(const uint8_t* input, size_t inputSize, size_t* pos)`:
reads up to 10 LEB128 bytes starting at `*pos`; accumulates
`ret |= (input[*pos+i] & 127) << (7*i)` in a `uint64_t` (hence `% 2^64`);
stops early when the continuation bit (128) is clear; finally
`*pos += i + 1`. -/

/-- One step of the `DecodeVarInt` loop: `i` is the loop counter, `acc` the
`uint64_t` accumulator; `fuel = 10 - i` renders the loop bound `i < 10`
structural.  Returns `(ret, new_pos)`. -/
def decodeVarIntGo (input : List ℕ) (pos : ℕ) : (fuel i acc : ℕ) → ℕ × ℕ
  | 0, i, acc => (acc, pos + i + 1)
  | fuel + 1, i, acc =>
    if pos + i < input.length then
      let b := input.getD (pos + i) 0
      let acc' := acc ||| (((b &&& 127) <<< (7 * i)) % 2 ^ 64)
      if b &&& 128 = 0 then (acc', pos + i + 1)
      else decodeVarIntGo input pos fuel (i + 1) acc'
    else (acc, pos + i + 1)

/-- `DecodeVarInt`: value and updated position. -/
def decodeVarInt (input : List ℕ) (pos : ℕ) : ℕ × ℕ :=
  decodeVarIntGo input pos 10 0 0

/-- Mathematical value of an LEB128 byte sequence (7 payload bits per byte,
low groups first). -/
def lebValue : List ℕ → ℕ
  | [] => 0
  | b :: bs => (b &&& 127) + 128 * lebValue bs

/-- `bs` is a well-formed VarInt: nonempty, at most 10 bytes, every byte a
byte, all bytes except the last have the continuation bit set, the last has
it clear. -/
def isWellFormedVarInt (bs : List ℕ) : Bool :=
  !bs.isEmpty && bs.length ≤ 10 && bs.all (· < 256) &&
    (bs.dropLast.all (128 ≤ ·)) && bs.getLast! < 128

/-! ## Preamble checks (`CheckIs32Bit`, `CheckOutOfBounds`, `CheckPreamble`)

`CheckIs32Bit` and `CheckOutOfBounds` live in `icc_codec_common.cc`, which is
not part of the sources; modelled from the spec ("sizes are 32-bit", "pos +
size must stay within the buffer"): `CheckIs32Bit v` fails iff `v >>> 32 ≠ 0`,
`CheckOutOfBounds pos size limit` fails iff `pos + size > limit` (no `Nat`
overflow). -/

/-- Modelled from the spec: `CheckIs32Bit` (icc_codec_common, not in the
sources) — fails iff the value does not fit in 32 bits. -/
def checkIs32Bit (v : ℕ) : Except String Unit :=
  if v >>> 32 = 0 then .ok () else .error "Value too large"

/-- Modelled from the spec: `CheckOutOfBounds` (icc_codec_common, not in the
sources) — fails iff `pos + size` exceeds `limit`. -/
def checkOutOfBounds (pos size limit : ℕ) : Except String Unit :=
  if pos + size > limit then .error "Out of bounds" else .ok ()

/-- `CheckPreamble` (src/lib/jxl/icc_codec.cc lines 79-98): reads the two
VarInts (declared output size, commands size) and applies the early validity
checks, in source order. -/
def checkPreamble (data : List ℕ) (encSize : ℕ) : Except String Unit := do
  let size := data.length
  let (osize, pos) := decodeVarInt data 0
  checkIs32Bit osize
  if pos ≥ size then throw "Out of bounds"
  let (csize, pos) := decodeVarInt data pos
  checkIs32Bit csize
  checkOutOfBounds pos csize size
  -- We expect that UnpredictICC inflates input, not the other way round.
  if osize + 65536 < encSize then throw "Malformed ICC"
  -- output_limit = 1 << 28
  if osize > 1 <<< 28 then throw "Decoded ICC is too large"
  return ()

example : decodeVarInt [0xC8, 0x01] 0 = (200, 2) := rfl
example : decodeVarInt [0x00] 0 = (0, 1) := rfl
example : checkPreamble [0, 0] 2 = .ok () := rfl

/-! ### Correctness of `DecodeVarInt` -/

/-- The `k` bytes of `input` starting at position `p` (out-of-range reads give
0, matching the reader's zero-extension). -/
def sliceBytes (input : List ℕ) (p k : ℕ) : List ℕ :=
  (List.range k).map (fun j => input.getD (p + j) 0)

theorem sliceBytes_succ (input : List ℕ) (p k : ℕ) :
    sliceBytes input p (k + 1) = input.getD p 0 :: sliceBytes input (p + 1) k := by
  simp only [sliceBytes, List.range_succ_eq_map, List.map_cons, List.map_map,
    Nat.add_zero]
  congr 1
  apply List.map_congr_left
  intro a _
  simp only [Function.comp]
  have h : p + (a + 1) = p + 1 + a := by omega
  rw [h]

theorem or_mod_two_pow (x y n : ℕ) :
    (x ||| y) % 2 ^ n = x % 2 ^ n ||| y % 2 ^ n := by
  apply Nat.eq_of_testBit_eq
  intro i
  simp only [Nat.testBit_mod_two_pow, Nat.testBit_or]
  by_cases h : i < n <;> simp [h]

theorem and128_eq_zero {b : ℕ} (h : b < 128) : b &&& 128 = 0 := by
  apply Nat.eq_of_testBit_eq
  intro i
  simp only [Nat.testBit_and, Nat.zero_testBit]
  have h128 : (128 : ℕ) = 2 ^ 7 := by norm_num
  rcases eq_or_ne i 7 with rfl | hne
  · have : Nat.testBit b 7 = false := Nat.testBit_lt_two_pow (by norm_num at h ⊢; omega)
    simp [this]
  · rw [h128, Nat.testBit_two_pow_of_ne (by omega)]
    simp

theorem and128_ne_zero {b : ℕ} (h1 : 128 ≤ b) (h2 : b < 256) : b &&& 128 ≠ 0 := by
  intro hz
  have h7 : Nat.testBit b 7 = true := by
    have hb : b = 2 ^ 7 + (b - 128) := by norm_num; omega
    rw [hb, Nat.testBit_two_pow_add_eq]
    have : Nat.testBit (b - 128) 7 = false := Nat.testBit_lt_two_pow (by norm_num; omega)
    simp [this]
  have : Nat.testBit (b &&& 128) 7 = true := by
    have h1287 : Nat.testBit 128 7 = true := by decide
    simp [Nat.testBit_and, h7, h1287]
  rw [hz] at this
  simp at this

theorem lebValue_lt (bs : List ℕ) : lebValue bs < 2 ^ (7 * bs.length) := by
  induction bs with
  | nil => simp [lebValue]
  | cons b rest ih =>
    have hb : b &&& 127 < 128 := by
      have : b &&& 127 ≤ 127 := Nat.and_le_right
      omega
    simp only [lebValue, List.length_cons]
    have : 7 * (rest.length + 1) = 7 * rest.length + 7 := by ring
    rw [this, pow_add]
    calc (b &&& 127) + 128 * lebValue rest
        < 128 + 128 * lebValue rest := by omega
      _ = 128 * (lebValue rest + 1) := by ring
      _ ≤ 128 * 2 ^ (7 * rest.length) := by
          have := ih; exact Nat.mul_le_mul_left 128 (by omega)
      _ = 2 ^ (7 * rest.length) * 2 ^ 7 := by
          rw [show (128 : ℕ) = 2 ^ 7 by norm_num]; ring

/-- Main induction for `DecodeVarInt`: starting the loop at counter `i` with
accumulator `acc`, on a well-formed `k`-byte group, yields the group's LEB128
value (shifted into place modulo `2^64`) OR-ed onto `acc`, and advances the
position by exactly `k`. -/
theorem decodeVarIntGo_spec (input : List ℕ) (pos : ℕ) :
    ∀ (k i acc : ℕ), 1 ≤ k → i + k ≤ 10 → pos + i + k ≤ input.length →
    (∀ j, j < k → input.getD (pos + i + j) 0 < 256) →
    (∀ j, j < k - 1 → 128 ≤ input.getD (pos + i + j) 0) →
    input.getD (pos + i + (k - 1)) 0 < 128 →
    decodeVarIntGo input pos (10 - i) i acc
      = (acc ||| ((lebValue (sliceBytes input (pos + i) k) <<< (7 * i)) % 2 ^ 64),
         pos + i + k) := by
  intro k
  induction k with
  | zero => omega
  | succ k ih =>
    intro i acc _ hik hlen hbytes hcont hlast
    have hi9 : i ≤ 9 := by omega
    have hfuel : 10 - i = (9 - i) + 1 := by omega
    rw [hfuel]
    have hguard : pos + i < input.length := by omega
    simp only [decodeVarIntGo, hguard, if_true]
    rcases Nat.eq_zero_or_pos k with rfl | hk
    · -- last byte: continuation bit clear
      have hb : input.getD (pos + i) 0 < 128 := by simpa using hlast
      rw [and128_eq_zero hb, if_pos rfl]
      have hslice : sliceBytes input (pos + i) 1 = [input.getD (pos + i) 0] := by
        simp [sliceBytes, List.range_succ]
      rw [hslice]
      simp [lebValue]
    · -- continuation byte
      have hbcont : 128 ≤ input.getD (pos + i) 0 := by
        have := hcont 0 (by omega); simpa using this
      have hbbyte : input.getD (pos + i) 0 < 256 := by
        have := hbytes 0 (by omega); simpa using this
      rw [if_neg (and128_ne_zero hbcont hbbyte)]
      have h9 : 9 - i = 10 - (i + 1) := by omega
      rw [h9]
      rw [ih (i + 1) _ hk (by omega) (by omega)
        (fun j hj => by
          have h := hbytes (j + 1) (by omega)
          have e : pos + i + (j + 1) = pos + (i + 1) + j := by omega
          rw [e] at h; exact h)
        (fun j hj => by
          have h := hcont (j + 1) (by omega)
          have e : pos + i + (j + 1) = pos + (i + 1) + j := by omega
          rw [e] at h; exact h)
        (by
          have h := hlast
          have e : pos + i + (k + 1 - 1) = pos + (i + 1) + (k - 1) := by omega
          rw [e] at h; exact h)]
      have harr : pos + (i + 1) + k = pos + i + (k + 1) := by omega
      rw [harr]
      have hslice : sliceBytes input (pos + i) (k + 1)
          = input.getD (pos + i) 0 :: sliceBytes input (pos + i + 1) k := by
        rw [sliceBytes_succ]
      have hslice' : sliceBytes input (pos + (i + 1)) k
          = sliceBytes input (pos + i + 1) k := by
        have : pos + (i + 1) = pos + i + 1 := by omega
        rw [this]
      rw [hslice', hslice]
      set b := input.getD (pos + i) 0 with hbdef
      set L := lebValue (sliceBytes input (pos + i + 1) k) with hLdef
      -- combine the OR-terms
      have hsplit : lebValue (b :: sliceBytes input (pos + i + 1) k) <<< (7 * i)
          = ((b &&& 127) <<< (7 * i)) ||| (L <<< (7 * (i + 1))) := by
        have hlow : (b &&& 127) * 2 ^ (7 * i) < 2 ^ (7 * (i + 1)) := by
          have h127 : b &&& 127 < 128 := by
            have : b &&& 127 ≤ 127 := Nat.and_le_right
            omega
          have : 7 * (i + 1) = 7 * i + 7 := by ring
          rw [this, pow_add]
          calc (b &&& 127) * 2 ^ (7 * i) < 128 * 2 ^ (7 * i) :=
                mul_lt_mul_of_pos_right h127 (pow_pos (by norm_num) _)
            _ = 2 ^ (7 * i) * 2 ^ 7 := by
                rw [show (128 : ℕ) = 2 ^ 7 by norm_num]; ring
        calc lebValue (b :: sliceBytes input (pos + i + 1) k) <<< (7 * i)
            = ((b &&& 127) + 128 * L) * 2 ^ (7 * i) := by
              rw [Nat.shiftLeft_eq]; simp [lebValue, hLdef]
          _ = 2 ^ (7 * (i + 1)) * L + (b &&& 127) * 2 ^ (7 * i) := by
              have : 7 * (i + 1) = 7 * i + 7 := by ring
              rw [this, pow_add]; norm_num; ring
          _ = 2 ^ (7 * (i + 1)) * L ||| (b &&& 127) * 2 ^ (7 * i) :=
              Nat.mul_add_lt_is_or hlow L
          _ = ((b &&& 127) <<< (7 * i)) ||| (L <<< (7 * (i + 1))) := by
              rw [Nat.shiftLeft_eq, Nat.shiftLeft_eq, Nat.lor_comm]
              ring_nf
      rw [hsplit, or_mod_two_pow, Nat.or_assoc]

/-- `DecodeVarInt` on a well-formed VarInt of `k ≤ 10` bytes returns the
LEB128 value of those bytes reduced modulo `2^64` (the `uint64_t`
accumulator), exactly the LEB128 value when `k ≤ 9`, and advances the cursor
by exactly `k`. -/
theorem decodeVarInt_spec (input : List ℕ) (pos k : ℕ)
    (hk1 : 1 ≤ k) (hk10 : k ≤ 10) (hlen : pos + k ≤ input.length)
    (hbytes : ∀ j, j < k → input.getD (pos + j) 0 < 256)
    (hcont : ∀ j, j < k - 1 → 128 ≤ input.getD (pos + j) 0)
    (hlast : input.getD (pos + (k - 1)) 0 < 128) :
    decodeVarInt input pos
      = (lebValue (sliceBytes input pos k) % 2 ^ 64, pos + k) ∧
    (k ≤ 9 → decodeVarInt input pos
      = (lebValue (sliceBytes input pos k), pos + k)) := by
  have h := decodeVarIntGo_spec input pos k 0 0 hk1 (by omega) (by simpa using hlen)
    (fun j hj => by simpa using hbytes j hj)
    (fun j hj => by simpa using hcont j hj)
    (by simpa using hlast)
  simp only [Nat.add_zero, Nat.zero_add, Nat.mul_zero, Nat.shiftLeft_zero,
    Nat.zero_or] at h
  have hmain : decodeVarInt input pos
      = (lebValue (sliceBytes input pos k) % 2 ^ 64, pos + k) := by
    rw [decodeVarInt]
    have h10 : (10 : ℕ) - 0 = 10 := rfl
    rw [← h10]
    simpa using h
  refine ⟨hmain, fun hk9 => ?_⟩
  have hlt : lebValue (sliceBytes input pos k) < 2 ^ 64 := by
    have hlen' : (sliceBytes input pos k).length = k := by simp [sliceBytes]
    have := lebValue_lt (sliceBytes input pos k)
    rw [hlen'] at this
    calc lebValue (sliceBytes input pos k) < 2 ^ (7 * k) := this
      _ ≤ 2 ^ 64 := Nat.pow_le_pow_right (by norm_num) (by omega)
  rw [hmain, Nat.mod_eq_of_lt hlt]

/-- Any non-`ok` value of `Except String Unit` is an error. -/
theorem except_unit_ne_ok {x : Except String Unit} (h : x ≠ .ok ()) :
    ∃ e, x = .error e := by
  cases x with
  | error e => exact ⟨e, rfl⟩
  | ok u => cases u; exact absurd rfl h

/-- `CheckPreamble` succeeds exactly when: the declared output size and
commands size are 32-bit, the cursor stays strictly inside the buffer between
the VarInts, the commands fit, the encoded size does not exceed the declared
output size by more than 65536 bytes, and the output size is at most `2^28`. -/
theorem checkPreamble_ok_iff (data : List ℕ) (encSize : ℕ) :
    checkPreamble data encSize = .ok () ↔
      ((decodeVarInt data 0).1 >>> 32 = 0 ∧
       (decodeVarInt data 0).2 < data.length ∧
       (decodeVarInt data (decodeVarInt data 0).2).1 >>> 32 = 0 ∧
       (decodeVarInt data (decodeVarInt data 0).2).2
         + (decodeVarInt data (decodeVarInt data 0).2).1 ≤ data.length ∧
       encSize ≤ (decodeVarInt data 0).1 + 65536 ∧
       (decodeVarInt data 0).1 ≤ 1 <<< 28) := by
  rcases hdv : decodeVarInt data 0 with ⟨osize, pos1⟩
  rcases hdv2 : decodeVarInt data pos1 with ⟨csize, pos2⟩
  simp only [checkPreamble, hdv, hdv2, checkIs32Bit, checkOutOfBounds]
  by_cases h1 : osize >>> 32 = 0 <;>
    simp only [h1, if_true, if_false, ite_true, ite_false] <;>
    [skip; simp [Except.bind, Bind.bind, throw, throwThe, MonadExceptOf.throw]]
  by_cases h2 : pos1 ≥ data.length <;>
    by_cases h3 : csize >>> 32 = 0 <;>
    by_cases h4 : pos2 + csize > data.length <;>
    by_cases h5 : osize + 65536 < encSize <;>
    by_cases h6 : osize > 1 <<< 28 <;>
    simp [h2, h3, h4, h5, h6, Except.bind, Bind.bind, throw, throwThe,
      MonadExceptOf.throw, pure, Except.pure] <;>
    omega

/-- **C3.** The ICC preamble check (a) rejects any stream whose encoded size
exceeds the declared output size by more than 65536 bytes, (b) rejects any
declared output size above `2^28`, and (c) accepts when the encoded size
exceeds the declared size by at most 65536 bytes and the remaining preamble
conditions hold. -/
theorem checkPreamble_bomb_and_limit :
    (∀ data encSize, (decodeVarInt data 0).1 + 65536 < encSize →
      ∃ e, checkPreamble data encSize = .error e) ∧
    (∀ data encSize, 1 <<< 28 < (decodeVarInt data 0).1 →
      ∃ e, checkPreamble data encSize = .error e) ∧
    (∀ data encSize,
      (decodeVarInt data 0).1 >>> 32 = 0 →
      (decodeVarInt data 0).2 < data.length →
      (decodeVarInt data (decodeVarInt data 0).2).1 >>> 32 = 0 →
      (decodeVarInt data (decodeVarInt data 0).2).2
        + (decodeVarInt data (decodeVarInt data 0).2).1 ≤ data.length →
      encSize ≤ (decodeVarInt data 0).1 + 65536 →
      (decodeVarInt data 0).1 ≤ 1 <<< 28 →
      checkPreamble data encSize = .ok ()) := by
  refine ⟨?_, ?_, ?_⟩ <;> intro data encSize
  · intro h
    apply except_unit_ne_ok
    intro hok
    have := (checkPreamble_ok_iff data encSize).1 hok
    omega
  · intro h
    apply except_unit_ne_ok
    intro hok
    have := (checkPreamble_ok_iff data encSize).1 hok
    omega
  · intro h1 h2 h3 h4 h5 h6
    exact (checkPreamble_ok_iff data encSize).2 ⟨h1, h2, h3, h4, h5, h6⟩

/-- Witness for `checkPreamble_bomb_and_limit`: the two-byte stream
`[0, 0]` (declared output size 0, commands size 0) with `enc_size = 2`
passes the preamble check. -/
theorem checkPreamble_bomb_and_limit_witness :
    checkPreamble [0, 0] 2 = .ok () :=
  checkPreamble_bomb_and_limit.2.2 [0, 0] 2 (by decide) (by decide) (by decide)
    (by decide) (by decide) (by decide)

/-- **C8 counterexample.** The ten-byte well-formed VarInt
`80 80 80 80 80 80 80 80 80 02` has LEB128 value `2^64`, but `DecodeVarInt`
returns 0 (the `uint64_t` accumulator wraps), refuting "the value returned
… equals the LEB128 value of those bytes" at `k = 10`. -/
theorem decodeVarInt_overflow_counterexample :
    isWellFormedVarInt (List.replicate 9 128 ++ [2]) = true ∧
    (List.replicate 9 128 ++ [2]).length = 10 ∧
    decodeVarInt (List.replicate 9 128 ++ [2]) 0 = (0, 10) ∧
    lebValue (List.replicate 9 128 ++ [2]) = 2 ^ 64 ∧
    (0 : ℕ) ≠ 2 ^ 64 := by
  exact ⟨by decide, by decide, by decide, by decide, by decide⟩

/-- Witness for `decodeVarInt_spec`: the two-byte VarInt `C8 01` decodes to
200 and advances the cursor by 2. -/
theorem decodeVarInt_spec_witness :
    decodeVarInt [200, 1] 0 = (lebValue (sliceBytes [200, 1] 0 2) % 2 ^ 64, 0 + 2) :=
  (decodeVarInt_spec [200, 1] 0 2 (by decide) (by decide) (by decide)
    (by decide) (by decide) (by decide)).1

/-! ## `UnpredictICC` (src/lib/jxl/icc_codec.cc lines 101-326)

The tag/type keyword tables, command opcodes and the header/prediction
helpers live in `icc_codec_common.{h,cc}`, which is not part of the sources;
they are modelled from the spec's command table (§4.6).  Their exact byte
values are value-only for the properties proved here: what matters for the
control flow embedded below is how many bytes each helper appends. -/

/-- Modelled from the spec: ICC header size ("The 128-byte header"). -/
def kICCHeaderSize : ℕ := 128

/-- A 4-byte ICC keyword. -/
abbrev Tag := List ℕ

/-- Modelled from the spec: known ICC tag keywords (`TAG_*` commands). -/
def kRtrcTag : Tag := [114, 84, 82, 67]
def kGtrcTag : Tag := [103, 84, 82, 67]
def kBtrcTag : Tag := [98, 84, 82, 67]
def kRxyzTag : Tag := [114, 88, 89, 90]
def kGxyzTag : Tag := [103, 88, 89, 90]
def kBxyzTag : Tag := [98, 88, 89, 90]
def kKxyzTag : Tag := [107, 88, 89, 90]
def kWtptTag : Tag := [119, 116, 112, 116]
def kBkptTag : Tag := [98, 107, 112, 116]
def kLumiTag : Tag := [108, 117, 109, 105]
def kCprtTag : Tag := [99, 112, 114, 116]
def kChadTag : Tag := [99, 104, 97, 100]
def kDescTag : Tag := [100, 101, 115, 99]
def kChrmTag : Tag := [99, 104, 114, 109]
def kDmndTag : Tag := [100, 109, 110, 100]
def kDmddTag : Tag := [100, 109, 100, 100]
def kXyz_Tag : Tag := [88, 89, 90, 32]
def kTextTag : Tag := [116, 101, 120, 116]
def kMlucTag : Tag := [109, 108, 117, 99]
def kParaTag : Tag := [112, 97, 114, 97]
def kCurvTag : Tag := [99, 117, 114, 118]
def kSf32Tag : Tag := [115, 102, 51, 50]
def kGbd_Tag : Tag := [103, 98, 100, 32]

/-- Modelled from the spec: the `TAG_*` keyword table. -/
def kTagStrings : List Tag :=
  [kCprtTag, kWtptTag, kBkptTag, kRxyzTag, kGxyzTag, kBxyzTag, kKxyzTag,
   kRtrcTag, kGtrcTag, kBtrcTag, kChadTag, kDescTag, kChrmTag, kDmndTag,
   kDmddTag, kLumiTag]

def kNumTagStrings : ℕ := kTagStrings.length

/-- Modelled from the spec: the `TYPE_*` keyword table. -/
def kTypeStrings : List Tag :=
  [kXyz_Tag, kDescTag, kTextTag, kMlucTag, kParaTag, kCurvTag, kSf32Tag,
   kGbd_Tag]

def kNumTypeStrings : ℕ := kTypeStrings.length

/-- Modelled from the spec: tag-list command codes. -/
def kCommandTagUnknown : ℕ := 1
def kCommandTagTRC : ℕ := 2
def kCommandTagXYZ : ℕ := 3
def kCommandTagStringFirst : ℕ := 4

/-- Modelled from the spec: main-content command codes. -/
def kCommandInsert : ℕ := 1
def kCommandShuffle2 : ℕ := 2
def kCommandShuffle4 : ℕ := 3
def kCommandPredict : ℕ := 4
def kCommandXYZ : ℕ := 10
def kCommandTypeStartFirst : ℕ := 16

def kFlagBitOffset : ℕ := 64
def kFlagBitSize : ℕ := 128

/-- Modelled from the spec: `AppendKeyword` — appends the 4 keyword bytes. -/
def appendKeyword (tag : Tag) (res : List ℕ) : List ℕ := res ++ tag

/-- Modelled from the spec: `AppendUint32` — appends 4 big-endian bytes. -/
def appendUint32 (u : ℕ) (res : List ℕ) : List ℕ :=
  res ++ [(u >>> 24) % 256, (u >>> 16) % 256, (u >>> 8) % 256, u % 256]

/-- Modelled from the spec: `DecodeKeyword` — reads 4 bytes. -/
def decodeKeyword (enc : List ℕ) (pos : ℕ) : Tag :=
  [enc.getD pos 0, enc.getD (pos + 1) 0, enc.getD (pos + 2) 0,
   enc.getD (pos + 3) 0]

/-- Modelled from the spec: `ICCInitialHeaderPrediction` — "fixed per-byte
initial predictions based on the declared output size"; here the declared
size big-endian followed by zeros (value-only for the properties proved). -/
def iccInitialHeaderPrediction (osize : ℕ) : List ℕ :=
  [(osize >>> 24) % 256, (osize >>> 16) % 256, (osize >>> 8) % 256,
   osize % 256] ++ List.replicate 124 0

/-- Modelled from the spec: `ICCPredictHeader` — refinement of the header
prediction for byte `i` from already-reconstructed bytes (value-only here:
identity refinement). -/
def iccPredictHeader (_res : List ℕ) (header : List ℕ) (_i : ℕ) : List ℕ :=
  header

/-- Modelled from the spec: `LinearPredictICCValue` — linear prediction over
the already-reconstructed output at distance `stride` (value-only for the
properties proved: order-0, single-byte form). -/
def linearPredictICCValue (data : List ℕ) (start i stride _width _order : ℕ) :
    ℕ :=
  data.getD (start + i - stride) 0

/-- `Shuffle` (src/lib/jxl/icc_codec.cc lines 34-53): transpose loop; `j` is
the input cursor, `s` the restart column, `fuel` the remaining output count. -/
def shuffleGo (data : List ℕ) (size height : ℕ) : (fuel j s : ℕ) → List ℕ
  | 0, _, _ => []
  | fuel + 1, j, s =>
    let out := data.getD j 0
    let j' := j + height
    if j' ≥ size then out :: shuffleGo data size height fuel (s + 1) (s + 1)
    else out :: shuffleGo data size height fuel j' s

/-- `Shuffle` on a whole buffer. -/
def shuffle (data : List ℕ) (width : ℕ) : List ℕ :=
  shuffleGo data data.length ((data.length + width - 1) / width) data.length 0 0

/-- Result of the header-reconstruction loop (lines 123-135). -/
inductive HeaderOut where
  | done (res : List ℕ) (pos : ℕ)
  | cont (res : List ℕ) (pos : ℕ)
  | fail (msg : String) (res : List ℕ)
deriving DecidableEq

/-- Header loop (lines 125-135): `for (i = 0; i <= kICCHeaderSize; i++)`;
`fuel = kICCHeaderSize + 1 - i`. -/
def unpredictHeaderGo (enc : List ℕ) (osize cpos commandsEnd : ℕ) :
    (fuel i : ℕ) → (res header : List ℕ) → (pos : ℕ) → HeaderOut
  | 0, _, res, _, pos => .cont res pos
  | fuel + 1, i, res, header, pos =>
    if res.length = osize then
      if cpos ≠ commandsEnd then .fail "Not all commands used" res
      else if pos ≠ enc.length then .fail "Not all data used" res
      else .done res pos
    else if i = kICCHeaderSize then .cont res pos
    else
      let header' := iccPredictHeader res header i
      if pos ≥ enc.length then .fail "Out of bounds" res
      else unpredictHeaderGo enc osize cpos commandsEnd fuel (i + 1)
        (res ++ [(enc.getD pos 0 + header'.getD i 0) % 256]) header' (pos + 1)

/-- Result of the tag-list loop (lines 147-216). -/
inductive TagOut where
  | cont (res : List ℕ) (cpos pos : ℕ)
  | fail (msg : String) (res : List ℕ)
deriving DecidableEq

/-- The seven fixed-size (20-byte) tags of the tag-list loop (line 174). -/
def isFixedSizeTag (tag : Tag) : Bool :=
  tag = kRxyzTag || tag = kGxyzTag || tag = kBxyzTag || tag = kKxyzTag ||
    tag = kWtptTag || tag = kBkptTag || tag = kLumiTag

/-- Tag-list loop (lines 147-216).  Each iteration consumes at least one
command byte, so `fuel = csize + 1` always suffices. -/
def unpredictTagsGo (enc : List ℕ) (osize commandsEnd : ℕ) :
    (fuel : ℕ) → (res : List ℕ) → (cpos pos : ℕ) →
    (prevtagstart prevtagsize : ℕ) → TagOut
  | 0, res, cpos, pos, _, _ => .cont res cpos pos
  | fuel + 1, res, cpos, pos, prevtagstart, prevtagsize =>
    if res.length > osize then .fail "Invalid result size" res
    else if cpos > commandsEnd then .fail "Out of bounds" res
    else if cpos = commandsEnd then .cont res cpos pos
    else
      let command := enc.getD cpos 0
      let cpos := cpos + 1
      let tagcode := command &&& 63
      if tagcode = 0 then .cont res cpos pos
      else
        -- select the tag keyword
        let tagRes : Except String (Tag × ℕ) :=
          if tagcode = kCommandTagUnknown then
            if pos + 4 > enc.length then .error "Out of bounds"
            else .ok (decodeKeyword enc pos, pos + 4)
          else if tagcode = kCommandTagTRC then .ok (kRtrcTag, pos)
          else if tagcode = kCommandTagXYZ then .ok (kRxyzTag, pos)
          else if tagcode - kCommandTagStringFirst ≥ kNumTagStrings then
            .error "Unknown tagcode"
          else .ok (kTagStrings.getD (tagcode - kCommandTagStringFirst) [],
                    pos)
        match tagRes with
        | .error msg => .fail msg res
        | .ok (tag, pos) =>
          let res := appendKeyword tag res
          let tagsize0 := if isFixedSizeTag tag then 20 else prevtagsize
          -- tag start
          let startRes : Except String (ℕ × ℕ) :=
            if command &&& kFlagBitOffset ≠ 0 then
              if cpos ≥ commandsEnd then .error "Out of bounds"
              else .ok (decodeVarInt enc cpos)
            else if prevtagstart >>> 32 ≠ 0 then .error "Value too large"
            else .ok (prevtagstart + prevtagsize, cpos)
          match startRes with
          | .error msg => .fail msg res
          | .ok (tagstart, cpos) =>
            if tagstart >>> 32 ≠ 0 then .fail "Value too large" res
            else
              let res := appendUint32 tagstart res
              let sizeRes : Except String (ℕ × ℕ) :=
                if command &&& kFlagBitSize ≠ 0 then
                  if cpos ≥ commandsEnd then .error "Out of bounds"
                  else .ok (decodeVarInt enc cpos)
                else .ok (tagsize0, cpos)
              match sizeRes with
              | .error msg => .fail msg res
              | .ok (tagsize, cpos) =>
                if tagsize >>> 32 ≠ 0 then .fail "Value too large" res
                else
                  let res := appendUint32 tagsize res
                  let res :=
                    if tagcode = kCommandTagTRC then
                      appendUint32 tagsize (appendUint32 tagstart
                        (appendKeyword kBtrcTag (appendUint32 tagsize
                          (appendUint32 tagstart
                            (appendKeyword kGtrcTag res)))))
                    else res
                  if tagcode = kCommandTagXYZ then
                    if (tagstart + tagsize * 2) >>> 32 ≠ 0 then
                      .fail "Value too large" res
                    else
                      let res :=
                        appendUint32 tagsize (appendUint32
                          (tagstart + tagsize * 2) (appendKeyword kBxyzTag
                            (appendUint32 tagsize (appendUint32
                              (tagstart + tagsize) (appendKeyword kGxyzTag
                                res)))))
                      unpredictTagsGo enc osize commandsEnd fuel res cpos pos
                        tagstart tagsize
                  else
                    unpredictTagsGo enc osize commandsEnd fuel res cpos pos
                      tagstart tagsize

/-- Result of the main-content loop (lines 220-320): `done` is reached only
by the `cpos == commands_end` break. -/
inductive MainOut where
  | done (res : List ℕ) (cpos pos : ℕ)
  | fail (msg : String) (res : List ℕ)
deriving DecidableEq

/-- The PREDICT stride gate (lines 269-276): the command is rejected iff the
output built so far is empty or `(size - 1) >> 2 < stride`. -/
def predictStrideInvalid (resLen stride : ℕ) : Bool :=
  resLen = 0 || (resLen - 1) >>> 2 < stride

/-- The PREDICT body loop (lines 295-299): push `num` predicted+delta bytes;
the prediction reads the output built so far (including bytes pushed by this
very loop). -/
def predictLoopGo (shuffled : List ℕ) (start stride width order : ℕ) :
    (fuel i : ℕ) → (res : List ℕ) → List ℕ
  | 0, _, res => res
  | fuel + 1, i, res =>
    let predicted := linearPredictICCValue res start i stride width order
    predictLoopGo shuffled start stride width order fuel (i + 1)
      (res ++ [(predicted + shuffled.getD i 0) % 256])

/-- One iteration of the main-content loop's command dispatch (lines
224-319): either an error (with the output as modified so far, matching the
C++ in-place writes) or the next `(res, cpos, pos)` state. -/
def unpredictMainStep (enc : List ℕ) (commandsEnd : ℕ) (res : List ℕ)
    (cpos pos : ℕ) : Except (String × List ℕ) (List ℕ × ℕ × ℕ) :=
  let command := enc.getD cpos 0
  let cpos := cpos + 1
  if command = kCommandInsert then
    if cpos ≥ commandsEnd then .error ("Out of bounds", res)
    else
      let (num, cpos) := decodeVarInt enc cpos
      if pos + num > enc.length then .error ("Out of bounds", res)
      else .ok (res ++ sliceBytes enc pos num, cpos, pos + num)
  else if command = kCommandShuffle2 ∨ command = kCommandShuffle4 then
    if cpos ≥ commandsEnd then .error ("Out of bounds", res)
    else
      let (num, cpos) := decodeVarInt enc cpos
      if pos + num > enc.length then .error ("Out of bounds", res)
      else
        let shuffled := sliceBytes enc pos num
        let shuffled :=
          if command = kCommandShuffle2 then shuffle shuffled 2
          else shuffle shuffled 4
        .ok (res ++ shuffled, cpos, pos + num)
  else if command = kCommandPredict then
    if cpos + 2 > commandsEnd then .error ("Out of bounds", res)
    else
      let flags := enc.getD cpos 0
      let cpos := cpos + 1
      let width := (flags &&& 3) + 1
      if width = 3 then .error ("Invalid width", res)
      else
        let order := (flags &&& 12) >>> 2
        if order = 3 then .error ("Invalid order", res)
        else
          let strideRes : Except String (ℕ × ℕ) :=
            if flags &&& 16 ≠ 0 then
              if cpos ≥ commandsEnd then .error "Out of bounds"
              else
                let (stride, cpos) := decodeVarInt enc cpos
                if stride < width then .error "Invalid stride"
                else .ok (stride, cpos)
            else .ok (width, cpos)
          match strideRes with
          | .error msg => .error (msg, res)
          | .ok (stride, cpos) =>
            if predictStrideInvalid res.length stride then
              .error ("Invalid stride", res)
            else if cpos ≥ commandsEnd then .error ("Out of bounds", res)
            else
              let (num, cpos) := decodeVarInt enc cpos
              if pos + num > enc.length then .error ("Out of bounds", res)
              else
                let shuffled := sliceBytes enc pos num
                let shuffled :=
                  if width > 1 then shuffle shuffled width else shuffled
                let start := res.length
                .ok (predictLoopGo shuffled start stride width order num 0 res,
                     cpos, pos + num)
  else if command = kCommandXYZ then
    let res := appendKeyword kXyz_Tag res ++ [0, 0, 0, 0]
    if pos + 12 > enc.length then .error ("Out of bounds", res)
    else .ok (res ++ sliceBytes enc pos 12, cpos, pos + 12)
  else if kCommandTypeStartFirst ≤ command ∧
      command < kCommandTypeStartFirst + kNumTypeStrings then
    .ok (appendKeyword (kTypeStrings.getD (command - kCommandTypeStartFirst)
      []) res ++ [0, 0, 0, 0], cpos, pos)
  else .error ("Unknown command", res)

/-- Main-content loop (lines 220-320).  Each iteration consumes at least one
command byte, so `fuel = csize + 1` always suffices. -/
def unpredictMainGo (enc : List ℕ) (osize commandsEnd : ℕ) :
    (fuel : ℕ) → (res : List ℕ) → (cpos pos : ℕ) → MainOut
  | 0, res, _, _ => .fail "Out of fuel" res
  | fuel + 1, res, cpos, pos =>
    if res.length > osize then .fail "Invalid result size" res
    else if cpos > commandsEnd then .fail "Out of bounds" res
    else if cpos = commandsEnd then .done res cpos pos
    else
      match unpredictMainStep enc commandsEnd res cpos pos with
      | .error (msg, res) => .fail msg res
      | .ok (res, cpos, pos) =>
        unpredictMainGo enc osize commandsEnd fuel res cpos pos

/-- Result of `UnpredictICC`: the reconstructed profile with the final
command/data cursors, or an error message with the partially built result
(the C++ `Status` plus the state of `*result`). -/
inductive IccOut where
  | ok (result : List ℕ) (cpos pos : ℕ)
  | err (msg : String) (result : List ℕ)
deriving DecidableEq

/-- `UnpredictICC` (src/lib/jxl/icc_codec.cc lines 101-326).  `res0` is the
content of `*result` on entry. -/
def unpredictICC (enc : List ℕ) (res0 : List ℕ) : IccOut :=
  if ¬ res0.isEmpty then .err "result must be empty initially" res0
  else
    let size := enc.length
    if 0 ≥ size then .err "Out of bounds" res0
    else
      let (osize, pos1) := decodeVarInt enc 0
      if osize >>> 32 ≠ 0 then .err "Value too large" res0
      else if pos1 ≥ size then .err "Out of bounds" res0
      else
        let (csize, pos2) := decodeVarInt enc pos1
        if csize >>> 32 ≠ 0 then .err "Value too large" res0
        else if pos2 + csize > size then .err "Out of bounds" res0
        else
          let cpos := pos2
          let commandsEnd := cpos + csize
          match unpredictHeaderGo enc osize cpos commandsEnd
              (kICCHeaderSize + 1) 0 [] (iccInitialHeaderPrediction osize)
              commandsEnd with
          | .fail msg res => .err msg res
          | .done res pos => .ok res cpos pos
          | .cont res pos =>
            if cpos ≥ commandsEnd then .err "Out of bounds" res
            else
              let (numtags, cpos) := decodeVarInt enc cpos
              let tagPhase : TagOut :=
                if numtags ≠ 0 then
                  let numtags' := numtags - 1
                  if numtags' >>> 32 ≠ 0 then .fail "Value too large" res
                  else
                    unpredictTagsGo enc osize commandsEnd (csize + 1)
                      (appendUint32 numtags' res) cpos pos
                      (kICCHeaderSize + numtags' * 12) 0
                else .cont res cpos pos
              match tagPhase with
              | .fail msg res => .err msg res
              | .cont res cpos pos =>
                match unpredictMainGo enc osize commandsEnd (csize + 1) res
                    cpos pos with
                | .fail msg res => .err msg res
                | .done res cpos pos =>
                  if pos ≠ size then .err "Not all data used" res
                  else if res.length ≠ osize then .err "Invalid result size" res
                  else .ok res cpos pos

example : unpredictICC [0, 0] [] = .ok [] 2 2 := rfl

/-- The error message of an `IccOut`, if any. -/
def IccOut.errMsg : IccOut → Option String
  | .err m _ => some m
  | .ok _ _ _ => none

/-- If the header loop returns `done` (the early valid-end return at line
129), its three guards held: output length equals the declared size, the
command cursor sits exactly at the end of the commands stream, and the data
cursor sits exactly at the end of the input. -/
theorem unpredictHeaderGo_done (enc : List ℕ) (osize cpos commandsEnd : ℕ) :
    ∀ (fuel i : ℕ) (res header : List ℕ) (pos : ℕ) (res' : List ℕ)
      (pos' : ℕ),
      unpredictHeaderGo enc osize cpos commandsEnd fuel i res header pos
        = .done res' pos' →
      res'.length = osize ∧ cpos = commandsEnd ∧ pos' = enc.length := by
  intro fuel
  induction fuel with
  | zero =>
    intro i res header pos res' pos' h
    simp [unpredictHeaderGo] at h
  | succ fuel ih =>
    intro i res header pos res' pos' h
    simp only [unpredictHeaderGo] at h
    by_cases h1 : res.length = osize
    · rw [if_pos h1] at h
      by_cases h2 : cpos ≠ commandsEnd
      · rw [if_pos h2] at h; simp at h
      · rw [if_neg h2] at h
        by_cases h3 : pos ≠ enc.length
        · rw [if_pos h3] at h; simp at h
        · rw [if_neg h3] at h
          cases h
          exact ⟨h1, not_not.mp h2, not_not.mp h3⟩
    · rw [if_neg h1] at h
      by_cases h4 : i = kICCHeaderSize
      · rw [if_pos h4] at h; simp at h
      · rw [if_neg h4] at h
        by_cases h5 : pos ≥ enc.length
        · rw [if_pos h5] at h; simp at h
        · rw [if_neg h5] at h
          exact ih _ _ _ _ _ _ h

/-- If the main-content loop returns `done`, it did so through the
`cpos == commands_end` break: the final command cursor is exactly the end of
the commands stream. -/
theorem unpredictMainGo_done (enc : List ℕ) (osize commandsEnd : ℕ) :
    ∀ (fuel : ℕ) (res : List ℕ) (cpos pos : ℕ) (res' : List ℕ)
      (cpos' pos' : ℕ),
      unpredictMainGo enc osize commandsEnd fuel res cpos pos
        = .done res' cpos' pos' → cpos' = commandsEnd := by
  intro fuel
  induction fuel with
  | zero =>
    intro res cpos pos res' cpos' pos' h
    exact MainOut.noConfusion h
  | succ fuel ih =>
    intro res cpos pos res' cpos' pos' h
    simp only [unpredictMainGo] at h
    by_cases h1 : res.length > osize
    · rw [if_pos h1] at h; exact MainOut.noConfusion h
    rw [if_neg h1] at h
    by_cases h2 : cpos > commandsEnd
    · rw [if_pos h2] at h; exact MainOut.noConfusion h
    rw [if_neg h2] at h
    by_cases h3 : cpos = commandsEnd
    · rw [if_pos h3] at h
      cases h
      exact h3
    rw [if_neg h3] at h
    rcases hS : unpredictMainStep enc commandsEnd res cpos pos with
      ⟨msg, resS⟩ | ⟨resS, cposS, posS⟩ <;> simp only [hS] at h
    · exact MainOut.noConfusion h
    · exact ih _ _ _ _ _ _ h

/-- **C2.** `UnpredictICC`, started on an empty output buffer, succeeds only
if the reconstructed output length equals the declared output size (the first
VarInt), the commands cursor has consumed exactly the declared commands size,
and the data cursor has consumed every remaining input byte. -/
theorem unpredictICC_ok_consumed (enc res : List ℕ) (cpos pos : ℕ)
    (h : unpredictICC enc [] = .ok res cpos pos) :
    res.length = (decodeVarInt enc 0).1 ∧
    cpos = (decodeVarInt enc (decodeVarInt enc 0).2).2
      + (decodeVarInt enc (decodeVarInt enc 0).2).1 ∧
    pos = enc.length := by
  rw [unpredictICC] at h
  rw [if_neg (by simp)] at h
  simp only [ge_iff_le] at h
  by_cases hsz : enc.length ≤ 0
  · rw [if_pos hsz] at h; exact IccOut.noConfusion h
  rw [if_neg hsz] at h
  rcases hdv : decodeVarInt enc 0 with ⟨osize, pos1⟩
  simp only [hdv] at h
  simp only [hdv]
  by_cases hos : osize >>> 32 ≠ 0
  · rw [if_pos hos] at h; exact IccOut.noConfusion h
  rw [if_neg hos] at h
  by_cases hp1 : enc.length ≤ pos1
  · rw [if_pos hp1] at h; exact IccOut.noConfusion h
  rw [if_neg hp1] at h
  rcases hdv2 : decodeVarInt enc pos1 with ⟨csize, pos2⟩
  simp only [hdv2] at h
  simp only [hdv2]
  by_cases hcs : csize >>> 32 ≠ 0
  · rw [if_pos hcs] at h; exact IccOut.noConfusion h
  rw [if_neg hcs] at h
  by_cases hob : enc.length < pos2 + csize
  · rw [if_pos hob] at h; exact IccOut.noConfusion h
  rw [if_neg hob] at h
  rcases hH : unpredictHeaderGo enc osize pos2 (pos2 + csize)
      (kICCHeaderSize + 1) 0 [] (iccInitialHeaderPrediction osize)
      (pos2 + csize) with ⟨resH, posH⟩ | ⟨resH, posH⟩ | ⟨msg, resH⟩ <;>
    simp only [hH] at h
  · -- header early valid end
    obtain ⟨hlen, hcend, hpos⟩ :=
      unpredictHeaderGo_done enc osize pos2 (pos2 + csize) _ _ _ _ _ _ _ hH
    cases h
    exact ⟨hlen, hcend, hpos⟩
  · -- continue into tag/main phases
    by_cases hce : pos2 + csize ≤ pos2
    · rw [if_pos hce] at h; exact IccOut.noConfusion h
    rw [if_neg hce] at h
    rcases hnt : decodeVarInt enc pos2 with ⟨numtags, cpos3⟩
    simp only [hnt] at h
    rcases hTP : (if numtags ≠ 0 then
        if (numtags - 1) >>> 32 ≠ 0 then
          TagOut.fail "Value too large" resH
        else
          unpredictTagsGo enc osize (pos2 + csize) (csize + 1)
            (appendUint32 (numtags - 1) resH) cpos3 posH
            (kICCHeaderSize + (numtags - 1) * 12) 0
      else TagOut.cont resH cpos3 posH) with ⟨resT, cposT, posT⟩ | ⟨msg, resT⟩ <;>
      simp only [hTP] at h
    · rcases hM : unpredictMainGo enc osize (pos2 + csize) (csize + 1) resT
          cposT posT with ⟨resM, cposM, posM⟩ | ⟨msg, resM⟩ <;>
        simp only [hM] at h
      · by_cases hpd : posM ≠ enc.length
        · rw [if_pos hpd] at h; exact IccOut.noConfusion h
        rw [if_neg hpd] at h
        by_cases hrl : resM.length ≠ osize
        · rw [if_pos hrl] at h; exact IccOut.noConfusion h
        rw [if_neg hrl] at h
        cases h
        refine ⟨not_not.mp hrl, ?_, not_not.mp hpd⟩
        exact unpredictMainGo_done enc osize (pos2 + csize) _ _ _ _ _ _ _ hM
      · exact IccOut.noConfusion h
    · exact IccOut.noConfusion h
  · exact IccOut.noConfusion h

/-- Witness for `unpredictICC_ok_consumed`: the stream `[0, 0]` (declared
output size 0, commands size 0) succeeds with empty output, and all cursors
are fully consumed. -/
theorem unpredictICC_ok_consumed_witness :
    ([] : List ℕ).length = (decodeVarInt [0, 0] 0).1 ∧
    2 = (decodeVarInt [0, 0] (decodeVarInt [0, 0] 0).2).2
      + (decodeVarInt [0, 0] (decodeVarInt [0, 0] 0).2).1 ∧
    2 = ([0, 0] : List ℕ).length :=
  unpredictICC_ok_consumed [0, 0] [] 2 2 rfl

/-- **C10.** `UnpredictICC` requires its output buffer to be empty on entry:
on a non-empty buffer it fails immediately, for every input, leaving the
buffer untouched. -/
theorem unpredictICC_nonempty_buffer (enc res0 : List ℕ) (h : res0 ≠ []) :
    unpredictICC enc res0 = .err "result must be empty initially" res0 := by
  have he : res0.isEmpty = false := by
    cases res0 with
    | nil => exact absurd rfl h
    | cons a l => rfl
  rw [unpredictICC, he]
  simp

/-- Witness for `unpredictICC_nonempty_buffer`. -/
theorem unpredictICC_nonempty_buffer_witness :
    unpredictICC [1, 2, 3] [5] = .err "result must be empty initially" [5] :=
  unpredictICC_nonempty_buffer [1, 2, 3] [5] (by decide)

/-- **C7 amended.** The PREDICT stride gate accepts iff four times the
stride is less than the number of bytes reconstructed *so far* (not the
declared output size). -/
theorem predictStrideInvalid_iff (resLen stride : ℕ) :
    predictStrideInvalid resLen stride = false ↔ 4 * stride < resLen := by
  simp only [predictStrideInvalid, Bool.or_eq_false_iff,
    decide_eq_false_iff_not, Nat.shiftRight_eq_div_pow]
  omega

/-- **C7 counterexample input**: declared output size 200, commands
`[numtags = 0, PREDICT, flags = 16 (stride follows), stride = 40]`, and 128
data bytes for the header. -/
def iccStrideCx : List ℕ := [200, 1, 4, 0, 4, 16, 40] ++ List.replicate 128 0

set_option maxRecDepth 40000 in
/-- **C7 counterexample.** On `iccStrideCx` the declared output size is 200
and the PREDICT stride is 40 with `40 < 200 / 4`, a valid width (1) and a
valid order (0) — yet `UnpredictICC` fails with the invalid-stride error,
because the gate compares the stride against the 128 bytes reconstructed so
far, not against the declared output size. -/
theorem unpredictICC_stride_counterexample :
    (decodeVarInt iccStrideCx 0).1 = 200 ∧
    decodeVarInt iccStrideCx 6 = (40, 7) ∧
    40 < 200 / 4 ∧
    (16 &&& 3) + 1 ≠ 3 ∧
    (16 &&& 12) >>> 2 ≠ 3 ∧
    (unpredictICC iccStrideCx []).errMsg = some "Invalid stride" := by
  exact ⟨by decide, by decide, by decide, by decide, by decide, by decide⟩

/-! ## Lehmer code (src/jxl/lehmer_code.h)

`ComputeLehmerCode` uses a Fenwick tree over `temp[0..n]`;
`DecodeLehmerCode` an implicit order-statistics tree over
`temp[0..2^ceil(log2 n))`.  `uint32_t` arithmetic never wraps for
`n ≤ 2^31 - 1`, which the theorems assume. -/

/-- `ValueOfLowest1Bit` (lines 31-34): `t & -t` on a 32-bit integer. -/
def valueOfLowest1Bit (t : ℕ) : ℕ := t &&& ((2 ^ 32 - t) % 2 ^ 32)

/-- Fenwick prefix-sum query (ComputeLehmerCode lines 49-54):
`while i ≠ 0 { penalty += temp[i]; i &= i - 1 }`.  `fuel = i` suffices since
`i` strictly decreases. -/
def fenwickQueryGo (temp : ℕ → ℕ) : (fuel i : ℕ) → ℕ
  | 0, _ => 0
  | fuel + 1, i =>
    if i = 0 then 0 else temp i + fenwickQueryGo temp fuel (i &&& (i - 1))

/-- Fenwick prefix-sum query at index `i`. -/
def fenwickQuery (temp : ℕ → ℕ) (i : ℕ) : ℕ := fenwickQueryGo temp i i

/-- Fenwick add (ComputeLehmerCode lines 58-62):
`while i < n + 1 { temp[i] += 1; i += lowbit i }`.  `fuel = bound` suffices
since `i` strictly increases while `i ≥ 1`. -/
def fenwickAddGo : (fuel : ℕ) → (temp : ℕ → ℕ) → (bound i : ℕ) → (ℕ → ℕ)
  | 0, temp, _, _ => temp
  | fuel + 1, temp, bound, i =>
    if i < bound then
      fenwickAddGo fuel (fun j => if j = i then temp j + 1 else temp j) bound
        (i + valueOfLowest1Bit i)
    else temp

/-- Fenwick add on the tree of `n + 1` cells. -/
def fenwickAdd (temp : ℕ → ℕ) (bound i : ℕ) : ℕ → ℕ :=
  fenwickAddGo bound temp bound i

/-- `ComputeLehmerCode` (lines 39-64), recursing over the permutation with
the Fenwick state; `n` is the length of the whole permutation. -/
def computeLehmerGo (n : ℕ) : List ℕ → (ℕ → ℕ) → List ℕ
  | [], _ => []
  | s :: rest, temp =>
    (s - fenwickQuery temp (s + 1)) ::
      computeLehmerGo n rest (fenwickAdd temp (n + 1) (s + 1))

/-- `ComputeLehmerCode`: the `temp` array starts all zero. -/
def computeLehmerCode (perm : List ℕ) : List ℕ :=
  computeLehmerGo perm.length perm (fun _ => 0)

/-- Modelled from the spec: `CeilLog2Nonzero` (jxl/base/bits.h, not in the
sources; semantics pinned by bits_test.cc: 1↦0, 2↦1, 3↦2, 4↦2, 5..8↦3, …) —
the smallest `k` with `n ≤ 2^k`. -/
def ceilLog2Go : (fuel k n : ℕ) → ℕ
  | 0, k, _ => k
  | fuel + 1, k, n => if n ≤ 2 ^ k then k else ceilLog2Go fuel (k + 1) n

def ceilLog2Nonzero (n : ℕ) : ℕ := ceilLog2Go n 0 n

example : ceilLog2Nonzero 1 = 0 := rfl
example : ceilLog2Nonzero 2 = 1 := rfl
example : ceilLog2Nonzero 3 = 2 := rfl
example : ceilLog2Nonzero 4 = 2 := rfl
example : ceilLog2Nonzero 5 = 3 := rfl
example : ceilLog2Nonzero 7 = 3 := rfl

/-- The descent of `DecodeLehmerCode` (lines 86-96): `steps = log2n + 1`
iterations; `bit` halves each time; `temp` is the 0-based C array (the tree
cell `c` lives at `temp (c - 1)`). -/
def ostSelectGo (temp : ℕ → ℕ) : (steps bit next rank : ℕ) → ℕ
  | 0, _, next, _ => next
  | steps + 1, bit, next, rank =>
    let cand := next + bit
    if temp (cand - 1) < rank then
      ostSelectGo temp steps (bit >>> 1) cand (rank - temp (cand - 1))
    else ostSelectGo temp steps (bit >>> 1) next rank

/-- The mark-used update of `DecodeLehmerCode` (lines 100-105):
`while next ≤ padded_n { temp[next-1] -= 1; next += lowbit next }`. -/
def ostMarkGo : (fuel : ℕ) → (temp : ℕ → ℕ) → (bound next : ℕ) → (ℕ → ℕ)
  | 0, temp, _, _ => temp
  | fuel + 1, temp, bound, next =>
    if next ≤ bound then
      ostMarkGo fuel (fun j => if j = next - 1 then temp j - 1 else temp j)
        bound (next + valueOfLowest1Bit next)
    else temp

/-- `DecodeLehmerCode` (lines 68-107), recursing over the code with the
order-statistics tree state. -/
def decodeLehmerGo (paddedN log2n : ℕ) : List ℕ → (ℕ → ℕ) → List ℕ
  | [], _ => []
  | c :: rest, temp =>
    let rank := c + 1
    let next := ostSelectGo temp (log2n + 1) paddedN 0 rank
    next :: decodeLehmerGo paddedN log2n rest
      (ostMarkGo (paddedN + 1) temp paddedN (next + 1))

/-- `DecodeLehmerCode`: `temp[i] = lowbit (i+1)` initially. -/
def decodeLehmerCode (code : List ℕ) : List ℕ :=
  let n := code.length
  let log2n := ceilLog2Nonzero n
  let paddedN := 2 ^ log2n
  decodeLehmerGo paddedN log2n code (fun i => valueOfLowest1Bit (i + 1))

example : computeLehmerCode [3, 1, 4, 0, 5, 2, 7, 6]
    = [3, 1, 2, 0, 1, 0, 1, 0] := by decide
example : decodeLehmerCode [3, 1, 2, 0, 1, 0, 1, 0]
    = [3, 1, 4, 0, 5, 2, 7, 6] := by decide
example : decodeLehmerCode [3, 1, 3, 0, 2, 3, 1, 0]
    = [3, 1, 5, 0, 6, 8, 4, 2] := by decide
example : decodeLehmerCode (computeLehmerCode [1, 0]) = [1, 0] := by decide

/-! ### Characterization of `valueOfLowest1Bit` -/

theorem testBit_succ_of_even {m : ℕ} (hm : m % 2 = 0) (j : ℕ) :
    (m + 1).testBit (j + 1) = m.testBit (j + 1) := by
  rw [Nat.testBit_add_one, Nat.testBit_add_one]
  congr 1
  omega

theorem testBit_pred_odd {o : ℕ} (ho : o % 2 = 1) {j : ℕ} (hj : 1 ≤ j) :
    o.testBit j = (o - 1).testBit j := by
  obtain ⟨j', rfl⟩ := Nat.exists_eq_add_of_le hj
  rw [Nat.add_comm 1 j']
  conv_lhs => rw [show o = (o - 1) + 1 by omega]
  exact testBit_succ_of_even (by omega) j'

theorem odd_decomp {t : ℕ} (h : 0 < t) :
    ∃ v o, o % 2 = 1 ∧ t = 2 ^ v * o := by
  obtain ⟨v, o, hdvd, rfl⟩ :=
    Nat.exists_eq_pow_mul_and_not_dvd (Nat.pos_iff_ne_zero.mp h) 2 (by norm_num)
  exact ⟨v, o, Nat.two_dvd_ne_zero.mp hdvd, rfl⟩

theorem pow_mul_odd_and_neg (v w o : ℕ) (ho : o % 2 = 1) (hlt : o < 2 ^ w) :
    (2 ^ v * o) &&& (2 ^ (v + w) - 2 ^ v * o) = 2 ^ v := by
  have hw : 1 ≤ w := by
    rcases Nat.eq_zero_or_pos w with rfl | h
    · simp at hlt; omega
    · exact h
  have ho1 : 1 ≤ o := by omega
  have hfac : 2 ^ (v + w) - 2 ^ v * o = 2 ^ v * (2 ^ w - o) := by
    rw [pow_add, Nat.mul_sub]
  have h2w : 2 ^ w % 2 = 0 := by
    have : (2 : ℕ) ∣ 2 ^ w := dvd_pow_self 2 (by omega)
    omega
  have ho' : (2 ^ w - o) % 2 = 1 := by omega
  have hole : o ≤ 2 ^ w := le_of_lt hlt
  rw [hfac]
  apply Nat.eq_of_testBit_eq
  intro k
  rw [Nat.testBit_and, Nat.testBit_mul_pow_two, Nat.testBit_mul_pow_two,
    Nat.testBit_two_pow]
  rcases lt_trichotomy k v with hkv | rfl | hkv
  · simp [Nat.not_le.mpr hkv, Nat.ne_of_gt hkv]
  · have h1 : o.testBit 0 = true := by
      rw [Nat.testBit_zero]; simp [ho]
    have h2 : (2 ^ w - o).testBit 0 = true := by
      rw [Nat.testBit_zero]; simp [ho']
    simp [h1, h2]
  · have hkv' : v ≤ k := le_of_lt hkv
    have hne : v ≠ k := Nat.ne_of_lt hkv
    have hj1 : 1 ≤ k - v := by omega
    rcases Nat.lt_or_ge (k - v) w with hjw | hjw
    · -- 1 ≤ k - v < w: complementary bits
      have hsub : (2 ^ w - o).testBit (k - v) = !((o - 1).testBit (k - v)) := by
        have he : 2 ^ w - o = 2 ^ w - ((o - 1) + 1) := by omega
        rw [he, Nat.testBit_two_pow_sub_succ (by omega)]
        simp [hjw]
      have hoo : o.testBit (k - v) = (o - 1).testBit (k - v) :=
        testBit_pred_odd ho hj1
      rw [hsub, hoo]
      simp [hkv', hne]
    · -- k - v ≥ w: o < 2^w ≤ 2^(k-v)
      have hz : o.testBit (k - v) = false :=
        Nat.testBit_lt_two_pow
          (lt_of_lt_of_le hlt (Nat.pow_le_pow_right (by norm_num) hjw))
      simp [hz, hne]

theorem valueOfLowest1Bit_pow_mul (v o : ℕ) (ho : o % 2 = 1)
    (h32 : 2 ^ v * o < 2 ^ 32) :
    valueOfLowest1Bit (2 ^ v * o) = 2 ^ v := by
  have ho1 : 1 ≤ o := by omega
  have hpos : 0 < 2 ^ v * o :=
    Nat.mul_pos (Nat.pos_pow_of_pos v (by norm_num)) (by omega)
  have hv : v < 32 := by
    by_contra hv
    push_neg at hv
    have h1 : (2 : ℕ) ^ 32 ≤ 2 ^ v := Nat.pow_le_pow_right (by norm_num) hv
    have h2 : 2 ^ v ≤ 2 ^ v * o := Nat.le_mul_of_pos_right _ (by omega)
    omega
  have how : o < 2 ^ (32 - v) := by
    have heq : 2 ^ v * 2 ^ (32 - v) = 2 ^ 32 := by
      rw [← pow_add]
      congr 1
      omega
    by_contra hc
    push_neg at hc
    have := Nat.mul_le_mul_left (2 ^ v) hc
    omega
  have hmod : (2 ^ 32 - 2 ^ v * o) % 2 ^ 32 = 2 ^ 32 - 2 ^ v * o :=
    Nat.mod_eq_of_lt (by omega)
  rw [valueOfLowest1Bit, hmod]
  have := pow_mul_odd_and_neg v (32 - v) o ho how
  rwa [show v + (32 - v) = 32 by omega] at this

theorem lowBit_pos {t : ℕ} (h0 : 0 < t) (h32 : t < 2 ^ 32) :
    0 < valueOfLowest1Bit t := by
  obtain ⟨v, o, ho, rfl⟩ := odd_decomp h0
  rw [valueOfLowest1Bit_pow_mul v o ho h32]
  exact Nat.pos_pow_of_pos v (by norm_num)

theorem lowBit_le {t : ℕ} (h0 : 0 < t) (h32 : t < 2 ^ 32) :
    valueOfLowest1Bit t ≤ t := by
  obtain ⟨v, o, ho, rfl⟩ := odd_decomp h0
  rw [valueOfLowest1Bit_pow_mul v o ho h32]
  exact Nat.le_mul_of_pos_right _ (by omega)

theorem and_pred_eq {t : ℕ} (h0 : 0 < t) (h32 : t < 2 ^ 32) :
    t &&& (t - 1) = t - valueOfLowest1Bit t := by
  obtain ⟨v, o, ho, rfl⟩ := odd_decomp h0
  rw [valueOfLowest1Bit_pow_mul v o ho h32]
  have ho1 : 1 ≤ o := by omega
  have h2v : 1 ≤ 2 ^ v := Nat.one_le_two_pow
  have hprod : 2 ^ v ≤ 2 ^ v * o := Nat.le_mul_of_pos_right _ (by omega)
  have hsub : 2 ^ v * o - 2 ^ v = 2 ^ v * (o - 1) := by
    rw [Nat.mul_sub, Nat.mul_one]
  have hpred : 2 ^ v * o - 1 = 2 ^ v * (o - 1) + (2 ^ v - 1) := by
    have h1 : 2 ^ v * (o - 1) + 2 ^ v = 2 ^ v * o := by
      rw [Nat.mul_sub, Nat.mul_one]
      omega
    omega
  rw [hsub, hpred]
  apply Nat.eq_of_testBit_eq
  intro k
  rw [Nat.testBit_and, Nat.testBit_mul_pow_two,
    Nat.testBit_mul_pow_two_add _ (show 2 ^ v - 1 < 2 ^ v by omega),
    Nat.testBit_mul_pow_two]
  rcases Nat.lt_or_ge k v with hkv | hkv
  · simp [Nat.not_le.mpr hkv]
  · rw [if_neg (Nat.not_lt.mpr hkv)]
    rcases Nat.eq_zero_or_pos (k - v) with hj0 | hj1
    · rw [hj0]
      have h1 : o.testBit 0 = true := by rw [Nat.testBit_zero]; simp [ho]
      have h2 : (o - 1).testBit 0 = false := by
        rw [Nat.testBit_zero]; simp; omega
      simp [h1, h2]
    · have hoo : o.testBit (k - v) = (o - 1).testBit (k - v) :=
        testBit_pred_odd ho hj1
      rw [hoo]
      simp

theorem lowBit_carry {t : ℕ} (h0 : 0 < t) (h31 : t < 2 ^ 31) :
    2 * valueOfLowest1Bit t ≤ valueOfLowest1Bit (t + valueOfLowest1Bit t) ∧
    (t + valueOfLowest1Bit t)
        - valueOfLowest1Bit (t + valueOfLowest1Bit t)
      ≤ t - valueOfLowest1Bit t := by
  have h32 : t < 2 ^ 32 := by omega
  obtain ⟨v, o, ho, rfl⟩ := odd_decomp h0
  rw [valueOfLowest1Bit_pow_mul v o ho h32]
  have ho1 : 1 ≤ o := by omega
  have hsum : 2 ^ v * o + 2 ^ v = 2 ^ v * (o + 1) := by ring
  obtain ⟨u, o', ho', heq⟩ := odd_decomp (show 0 < o + 1 by omega)
  have hu : 1 ≤ u := by
    rcases Nat.eq_zero_or_pos u with rfl | h
    · simp at heq; omega
    · exact h
  have hfull : 2 ^ v * o + 2 ^ v = 2 ^ (v + u) * o' := by
    rw [hsum, heq, pow_add]
    ring
  have hlt32 : 2 ^ (v + u) * o' < 2 ^ 32 := by
    rw [← hfull]
    have : 2 ^ v ≤ 2 ^ v * o := Nat.le_mul_of_pos_right _ (by omega)
    omega
  rw [hfull, valueOfLowest1Bit_pow_mul (v + u) o' ho' hlt32]
  constructor
  · rw [pow_add]
    have h1 : (2 : ℕ) ≤ 2 ^ u := by
      calc (2 : ℕ) = 2 ^ 1 := by norm_num
        _ ≤ 2 ^ u := Nat.pow_le_pow_right (by norm_num) hu
    calc 2 * 2 ^ v = 2 ^ v * 2 := by ring
      _ ≤ 2 ^ v * 2 ^ u := Nat.mul_le_mul_left _ h1
  · have ho'1 : 1 ≤ o' := by omega
    have hkey : 2 ^ u * (o' - 1) ≤ o - 1 := by
      have hoe : o = 2 ^ u * o' - 1 := by omega
      have h2u : (2 : ℕ) ≤ 2 ^ u := by
        calc (2 : ℕ) = 2 ^ 1 := by norm_num
          _ ≤ 2 ^ u := Nat.pow_le_pow_right (by norm_num) hu
      have hmul : 2 ^ u * (o' - 1) = 2 ^ u * o' - 2 ^ u := by
        rw [Nat.mul_sub, Nat.mul_one]
      have h2uo : 2 ^ u ≤ 2 ^ u * o' := Nat.le_mul_of_pos_right _ (by omega)
      omega
    have hL : 2 ^ (v + u) * o' - 2 ^ (v + u) = 2 ^ v * (2 ^ u * (o' - 1)) := by
      rw [pow_add, Nat.mul_sub, Nat.mul_sub]
      ring_nf
    have hR : 2 ^ v * o - 2 ^ v = 2 ^ v * (o - 1) := by
      rw [Nat.mul_sub, Nat.mul_one]
    rw [hL, hR]
    exact Nat.mul_le_mul_left _ hkey

theorem lowBit_add_lt {t r : ℕ} (h0 : 0 < t) (hr : 0 < r)
    (hrlb : r < valueOfLowest1Bit t) (h32 : t + r < 2 ^ 32) :
    valueOfLowest1Bit (t + r) = valueOfLowest1Bit r := by
  have ht32 : t < 2 ^ 32 := by omega
  have hr32 : r < 2 ^ 32 := by omega
  obtain ⟨v, o, ho, rfl⟩ := odd_decomp h0
  obtain ⟨u, r', hr', rfl⟩ := odd_decomp hr
  rw [valueOfLowest1Bit_pow_mul v o ho ht32] at hrlb
  rw [valueOfLowest1Bit_pow_mul u r' hr' hr32]
  have hr'1 : 1 ≤ r' := by omega
  have huv : u < v := by
    by_contra hc
    push_neg at hc
    have h1 : 2 ^ v ≤ 2 ^ u := Nat.pow_le_pow_right (by norm_num) hc
    have h2 : 2 ^ u ≤ 2 ^ u * r' := Nat.le_mul_of_pos_right _ (by omega)
    omega
  have hfac : 2 ^ v * o + 2 ^ u * r' = 2 ^ u * (2 ^ (v - u) * o + r') := by
    rw [Nat.mul_add, ← Nat.mul_assoc, ← pow_add,
      show u + (v - u) = v by omega]
  have hodd : (2 ^ (v - u) * o + r') % 2 = 1 := by
    have h2vu : 2 ^ (v - u) % 2 = 0 := by
      have : (2 : ℕ) ∣ 2 ^ (v - u) := dvd_pow_self 2 (by omega)
      omega
    have : 2 ^ (v - u) * o % 2 = 0 := by
      have : (2 : ℕ) ∣ 2 ^ (v - u) * o :=
        Dvd.dvd.mul_right (by omega) o
      omega
    omega
  rw [hfac, valueOfLowest1Bit_pow_mul u _ hodd (by rw [← hfac]; exact h32)]

/-! ### Fenwick chains -/

/-- Tree cell `c` covers position `p` (1-based): `c - lowbit c < p ≤ c`. -/
def Covers (p c : ℕ) : Prop :=
  c - valueOfLowest1Bit c < p ∧ p ≤ c

instance (p c : ℕ) : Decidable (Covers p c) := by
  unfold Covers; infer_instance

theorem covers_self {p : ℕ} (hp : 0 < p) (h32 : p < 2 ^ 32) : Covers p p :=
  ⟨by have := lowBit_pos hp h32; omega, le_refl p⟩

theorem covers_step {p i : ℕ} (hi0 : 0 < i) (h31 : i < 2 ^ 31)
    (hcov : Covers p i) : Covers p (i + valueOfLowest1Bit i) := by
  obtain ⟨h1, h2⟩ := hcov
  obtain ⟨hc1, hc2⟩ := lowBit_carry hi0 h31
  have hlb := lowBit_pos hi0 (by omega)
  exact ⟨by omega, by omega⟩

theorem covers_next {p i c : ℕ} (hi0 : 0 < i)
    (hci : Covers p i) (hcc : Covers p c) (hlt : i < c) (h32 : c < 2 ^ 32) :
    i + valueOfLowest1Bit i ≤ c := by
  by_contra hc
  push_neg at hc
  have hr0 : 0 < c - i := by omega
  have hrlb : c - i < valueOfLowest1Bit i := by omega
  have hlbc : valueOfLowest1Bit c = valueOfLowest1Bit (c - i) := by
    have := lowBit_add_lt hi0 hr0 hrlb (show i + (c - i) < 2 ^ 32 by omega)
    rwa [show i + (c - i) = c by omega] at this
  have hle : valueOfLowest1Bit (c - i) ≤ c - i := lowBit_le hr0 (by omega)
  obtain ⟨hcc1, hcc2⟩ := hcc
  obtain ⟨hci1, hci2⟩ := hci
  omega

/-- Characterization of the Fenwick add walk (ComputeLehmerCode lines
58-62): starting from a covering cell `i`, it bumps exactly the covering
cells `c` with `i ≤ c ≤ N`. -/
theorem fenwickAddGo_char {p N : ℕ} (hN : N < 2 ^ 31) :
    ∀ (fuel : ℕ) (temp : ℕ → ℕ) (i : ℕ), 0 < i → Covers p i →
      N + 1 - i ≤ fuel →
      ∀ c, fenwickAddGo fuel temp (N + 1) i c
        = temp c + (if i ≤ c ∧ c ≤ N ∧ Covers p c then 1 else 0) := by
  intro fuel
  induction fuel with
  | zero =>
    intro temp i hi0 hcov hfu c
    simp only [fenwickAddGo]
    have hno : ¬(i ≤ c ∧ c ≤ N ∧ Covers p c) := by
      rintro ⟨h1, h2, _⟩; omega
    simp [hno]
  | succ fuel ih =>
    intro temp i hi0 hcov hfu c
    simp only [fenwickAddGo]
    by_cases hib : i < N + 1
    · rw [if_pos hib]
      have hi31 : i < 2 ^ 31 := by omega
      have hlb1 : 1 ≤ valueOfLowest1Bit i := lowBit_pos hi0 (by omega)
      rw [ih _ _ (by omega) (covers_step hi0 hi31 hcov) (by omega)]
      by_cases hc : c = i
      · subst hc
        have h1 : ¬(c + valueOfLowest1Bit c ≤ c) := by omega
        have h2 : c ≤ N := by omega
        simp [h1, h2, hcov]
      · simp only [hc, if_false]
        by_cases hcond : i ≤ c ∧ c ≤ N ∧ Covers p c
        · obtain ⟨hc1, hc2, hc3⟩ := hcond
          have hnx : i + valueOfLowest1Bit i ≤ c :=
            covers_next hi0 hcov hc3 (by omega) (by omega)
          simp [hnx, hc2, hc3, hc1]
        · have hno : ¬(i + valueOfLowest1Bit i ≤ c ∧ c ≤ N ∧ Covers p c) := by
            rintro ⟨a1, a2, a3⟩
            exact hcond ⟨by omega, a2, a3⟩
          simp [hno, hcond]
    · rw [if_neg hib]
      have hno : ¬(i ≤ c ∧ c ≤ N ∧ Covers p c) := by
        rintro ⟨h1, h2, _⟩; omega
      simp [hno]

/-- Characterization of the mark-used walk (DecodeLehmerCode lines 100-105):
starting from a covering cell `i`, it decrements (0-based storage) exactly
the covering cells `c = j + 1` with `i ≤ c ≤ M`. -/
theorem ostMarkGo_char {p M : ℕ} (hM : M < 2 ^ 31) :
    ∀ (fuel : ℕ) (temp : ℕ → ℕ) (i : ℕ), 0 < i → Covers p i →
      M + 1 - i ≤ fuel →
      ∀ j, ostMarkGo fuel temp M i j
        = temp j - (if i ≤ j + 1 ∧ j + 1 ≤ M ∧ Covers p (j + 1) then 1
            else 0) := by
  intro fuel
  induction fuel with
  | zero =>
    intro temp i hi0 hcov hfu j
    simp only [ostMarkGo]
    have hno : ¬(i ≤ j + 1 ∧ j + 1 ≤ M ∧ Covers p (j + 1)) := by
      rintro ⟨h1, h2, _⟩; omega
    simp [hno]
  | succ fuel ih =>
    intro temp i hi0 hcov hfu j
    simp only [ostMarkGo]
    by_cases hib : i ≤ M
    · rw [if_pos hib]
      have hi31 : i < 2 ^ 31 := by omega
      have hlb1 : 1 ≤ valueOfLowest1Bit i := lowBit_pos hi0 (by omega)
      rw [ih _ _ (by omega) (covers_step hi0 hi31 hcov) (by omega)]
      by_cases hc : j = i - 1
      · subst hc
        have hji : i - 1 + 1 = i := by omega
        have h1 : ¬(i + valueOfLowest1Bit i ≤ i - 1 + 1) := by omega
        simp only [if_pos rfl, h1, false_and, if_false, Nat.sub_zero]
        have h2 : i - 1 + 1 ≤ M := by omega
        rw [hji]
        simp [hib, hcov, Nat.sub_sub]
      · simp only [hc, if_false]
        by_cases hcond : i ≤ j + 1 ∧ j + 1 ≤ M ∧ Covers p (j + 1)
        · obtain ⟨hc1, hc2, hc3⟩ := hcond
          have hlt : i < j + 1 := by omega
          have hnx : i + valueOfLowest1Bit i ≤ j + 1 :=
            covers_next hi0 hcov hc3 hlt (by omega)
          simp [hnx, hc2, hc3, hc1]
        · have hno : ¬(i + valueOfLowest1Bit i ≤ j + 1 ∧ j + 1 ≤ M ∧
              Covers p (j + 1)) := by
            rintro ⟨a1, a2, a3⟩
            exact hcond ⟨by omega, a2, a3⟩
          simp [hno, hcond]
    · rw [if_neg hib]
      have hno : ¬(i ≤ j + 1 ∧ j + 1 ≤ M ∧ Covers p (j + 1)) := by
        rintro ⟨h1, h2, _⟩; omega
      simp [hno]

/-! ### Fenwick invariant, query, and updates -/

/-- Sum of the weights of positions `1..c`. -/
def prefixW (a : ℕ → ℕ) (c : ℕ) : ℕ := ∑ q ∈ Finset.Ioc 0 c, a q

/-- The Fenwick invariant over cells `1..N`: cell `c` holds the sum of the
weights of the positions it covers. -/
def FenwickInv (N : ℕ) (temp a : ℕ → ℕ) : Prop :=
  ∀ c, 1 ≤ c → c ≤ N →
    temp c = ∑ q ∈ Finset.Ioc (c - valueOfLowest1Bit c) c, a q

theorem sum_bump (a : ℕ → ℕ) (p : ℕ) (s : Finset ℕ) :
    (∑ q ∈ s, (if q = p then a q + 1 else a q))
      = (∑ q ∈ s, a q) + (if p ∈ s then 1 else 0) := by
  have h1 : ∀ q ∈ s, (if q = p then a q + 1 else a q)
      = a q + (if q = p then 1 else 0) := by
    intro q _; by_cases h : q = p <;> simp [h]
  rw [Finset.sum_congr rfl h1, Finset.sum_add_distrib]
  congr 1
  simp [Finset.sum_ite_eq']

theorem sum_debump (a : ℕ → ℕ) {p : ℕ} (hap : 1 ≤ a p) (s : Finset ℕ) :
    (∑ q ∈ s, (if q = p then a q - 1 else a q))
      = (∑ q ∈ s, a q) - (if p ∈ s then 1 else 0) := by
  by_cases hp : p ∈ s
  · have h1 : (∑ q ∈ s, (if q = p then a q - 1 else a q))
        = (∑ q ∈ s.erase p, a q) + (a p - 1) := by
      rw [← Finset.sum_erase_add _ _ hp]
      congr 1
      · apply Finset.sum_congr rfl
        intro x hx
        have hne : x ≠ p := Finset.ne_of_mem_erase hx
        simp [hne]
      · simp
    have h2 : (∑ q ∈ s, a q) = (∑ q ∈ s.erase p, a q) + a p :=
      (Finset.sum_erase_add _ _ hp).symm
    rw [h1, h2]
    simp only [hp, if_pos]
    omega
  · have h1 : ∀ x ∈ s, (if x = p then a x - 1 else a x) = a x := by
      intro x hx
      have hne : x ≠ p := by rintro rfl; exact hp hx
      simp [hne]
    rw [Finset.sum_congr rfl h1]
    simp [hp]

/-- The Fenwick query returns the prefix sum. -/
theorem fenwickQuery_eq {N : ℕ} (hN : N < 2 ^ 31) (temp a : ℕ → ℕ)
    (inv : FenwickInv N temp a) :
    ∀ i, i ≤ N → ∀ fuel, i ≤ fuel →
      fenwickQueryGo temp fuel i = prefixW a i := by
  intro i
  induction i using Nat.strong_induction_on with
  | _ i ih =>
    intro hiN fuel hfuel
    rcases Nat.eq_zero_or_pos i with rfl | hi0
    · cases fuel <;> simp [fenwickQueryGo, prefixW]
    · have hfe : fuel = (fuel - 1) + 1 := by omega
      rw [hfe]
      simp only [fenwickQueryGo]
      rw [if_neg (by omega)]
      have hstep : i &&& (i - 1) = i - valueOfLowest1Bit i :=
        and_pred_eq hi0 (by omega)
      have hlb1 := lowBit_pos hi0 (show i < 2 ^ 32 by omega)
      have hlble := lowBit_le hi0 (show i < 2 ^ 32 by omega)
      rw [hstep,
        ih (i - valueOfLowest1Bit i) (by omega) (by omega) (fuel - 1)
          (by omega),
        inv i hi0 hiN]
      have hdisj : Disjoint (Finset.Ioc 0 (i - valueOfLowest1Bit i))
          (Finset.Ioc (i - valueOfLowest1Bit i) i) := by
        rw [Finset.disjoint_left]
        intro x hx hx2
        simp only [Finset.mem_Ioc] at hx hx2
        omega
      have hunion : Finset.Ioc 0 (i - valueOfLowest1Bit i)
            ∪ Finset.Ioc (i - valueOfLowest1Bit i) i
          = Finset.Ioc 0 i :=
        Finset.Ioc_union_Ioc_eq_Ioc (by omega) (by omega)
      rw [prefixW, prefixW, Nat.add_comm, ← Finset.sum_union hdisj, hunion]

/-- `fenwickQuery` on a valid tree is the prefix sum. -/
theorem fenwickQuery_prefixSum {N : ℕ} (hN : N < 2 ^ 31) (temp a : ℕ → ℕ)
    (inv : FenwickInv N temp a) (i : ℕ) (hiN : i ≤ N) :
    fenwickQuery temp i = prefixW a i :=
  fenwickQuery_eq hN temp a inv i hiN i (le_refl i)

/-- `fenwickAdd` preserves the invariant, bumping position `p`. -/
theorem fenwickAdd_inv {N : ℕ} (hN : N < 2 ^ 31) (temp a : ℕ → ℕ)
    (inv : FenwickInv N temp a) (p : ℕ) (hp1 : 1 ≤ p) (hpN : p ≤ N) :
    FenwickInv N (fenwickAdd temp (N + 1) p)
      (fun q => if q = p then a q + 1 else a q) := by
  intro c hc1 hcN
  rw [fenwickAdd,
    fenwickAddGo_char hN (N + 1) temp p (by omega)
      (covers_self (by omega) (by omega)) (by omega) c,
    inv c hc1 hcN, sum_bump]
  congr 1
  have hmem : p ∈ Finset.Ioc (c - valueOfLowest1Bit c) c ↔ Covers p c := by
    simp [Finset.mem_Ioc, Covers]
  by_cases hcov : Covers p c
  · have hpc : p ≤ c := hcov.2
    simp [hmem, hcov, hpc, hcN]
  · simp [hmem, hcov]

/-- The C array viewed 1-based: tree cell `c` lives at `temp (c - 1)`. -/
def shiftTemp (temp : ℕ → ℕ) : ℕ → ℕ := fun c => temp (c - 1)

/-- The mark-used walk preserves the (0-based-storage) invariant, debumping
position `p`. -/
theorem ostMark_inv {M : ℕ} (hM : M < 2 ^ 31) (temp a : ℕ → ℕ)
    (inv : FenwickInv M (shiftTemp temp) a) (p : ℕ) (hp1 : 1 ≤ p)
    (hpM : p ≤ M) (hap : 1 ≤ a p) :
    FenwickInv M (shiftTemp (ostMarkGo (M + 1) temp M p))
      (fun q => if q = p then a q - 1 else a q) := by
  intro c hc1 hcN
  have hinv := inv c hc1 hcN
  simp only [shiftTemp] at hinv ⊢
  rw [ostMarkGo_char hM (M + 1) temp p (by omega)
      (covers_self (by omega) (by omega)) (by omega) (c - 1)]
  rw [show c - 1 + 1 = c by omega]
  rw [hinv, sum_debump a hap]
  congr 1
  have hmem : p ∈ Finset.Ioc (c - valueOfLowest1Bit c) c ↔ Covers p c := by
    simp [Finset.mem_Ioc, Covers]
  by_cases hcov : Covers p c
  · have hpc : p ≤ c := hcov.2
    simp [hmem, hcov, hpc, hcN]
  · simp [hmem, hcov]

/-! ### The order-statistics descent -/

theorem prefixW_split (a : ℕ → ℕ) {b c : ℕ} (h : b ≤ c) :
    prefixW a c = prefixW a b + ∑ q ∈ Finset.Ioc b c, a q := by
  have hdisj : Disjoint (Finset.Ioc 0 b) (Finset.Ioc b c) := by
    rw [Finset.disjoint_left]
    intro x hx hx2
    simp only [Finset.mem_Ioc] at hx hx2
    omega
  have hunion : Finset.Ioc 0 b ∪ Finset.Ioc b c = Finset.Ioc 0 c :=
    Finset.Ioc_union_Ioc_eq_Ioc (by omega) h
  rw [prefixW, prefixW, ← Finset.sum_union hdisj, hunion]

theorem prefixW_mono (a : ℕ → ℕ) {b c : ℕ} (h : b ≤ c) :
    prefixW a b ≤ prefixW a c := by
  rw [prefixW_split a h]
  omega

theorem prefixW_zero (a : ℕ → ℕ) : prefixW a 0 = 0 := by
  simp [prefixW]

theorem prefixW_succ (a : ℕ → ℕ) (b : ℕ) :
    prefixW a (b + 1) = prefixW a b + a (b + 1) := by
  rw [prefixW_split a (Nat.le_succ b)]
  congr 1
  rw [show Finset.Ioc b (b + 1) = {b + 1} by
    ext x; simp only [Finset.mem_Ioc, Finset.mem_singleton]; omega]
  simp

theorem lowBit_odd {c : ℕ} (hodd : c % 2 = 1) (h32 : c < 2 ^ 32) :
    valueOfLowest1Bit c = 1 := by
  have := valueOfLowest1Bit_pow_mul 0 c hodd (by simpa using h32)
  simpa using this

theorem lowBit_two_pow {L : ℕ} (h32 : 2 ^ L < 2 ^ 32) :
    valueOfLowest1Bit (2 ^ L) = 2 ^ L := by
  have := valueOfLowest1Bit_pow_mul L 1 (by norm_num) (by simpa using h32)
  simpa using this

theorem lowBit_block {s next : ℕ} (hmod : next % 2 ^ (s + 1) = 0)
    (h32 : next + 2 ^ s < 2 ^ 32) :
    valueOfLowest1Bit (next + 2 ^ s) = 2 ^ s := by
  obtain ⟨m, hm⟩ := Nat.dvd_iff_mod_eq_zero.mpr hmod
  have heq : next + 2 ^ s = 2 ^ s * (2 * m + 1) := by
    rw [hm, pow_succ]
    ring
  rw [heq, valueOfLowest1Bit_pow_mul s (2 * m + 1) (by omega)
    (by rw [← heq]; exact h32)]

/-- The descent invariant: if the answer `P` lies in the half-open block
`(next, next + 2^(s+1)]` of the tree and `rank` is the residual rank within
the block, the remaining `s+1` iterations land exactly on `P - 1`. -/
theorem ostSelectGo_spec {M : ℕ} (hM : M < 2 ^ 31) (temp a : ℕ → ℕ)
    (inv : FenwickInv M (shiftTemp temp) a) (rank₀ P : ℕ)
    (hPlow : prefixW a (P - 1) < rank₀) (hPhigh : rank₀ ≤ prefixW a P) :
    ∀ (s : ℕ) (next : ℕ), next % 2 ^ (s + 1) = 0 →
      next + 2 ^ (s + 1) ≤ M → next < P → P ≤ next + 2 ^ (s + 1) →
      ostSelectGo temp (s + 1) (2 ^ s) next (rank₀ - prefixW a next)
        = P - 1 := by
  intro s
  induction s with
  | zero =>
    intro next hmod hbound hPlo hPhi
    norm_num at hmod hbound hPhi
    have hcand32 : next + 1 < 2 ^ 32 := by omega
    have hlb : valueOfLowest1Bit (next + 1) = 1 :=
      lowBit_odd (by omega) hcand32
    have hcell := inv (next + 1) (by omega) (by omega)
    rw [hlb] at hcell
    simp only [shiftTemp, Nat.add_sub_cancel] at hcell
    have hioc : Finset.Ioc next (next + 1) = {next + 1} := by
      ext x; simp only [Finset.mem_Ioc, Finset.mem_singleton]; omega
    rw [hioc] at hcell
    simp only [Finset.sum_singleton] at hcell
    have hprefnext : prefixW a next < rank₀ := by
      have h1 : prefixW a next ≤ prefixW a (P - 1) := prefixW_mono a (by omega)
      omega
    have hidx : next + 2 ^ 0 - 1 = next := by norm_num
    simp only [ostSelectGo, hidx, hcell]
    by_cases hbr : a (next + 1) < rank₀ - prefixW a next
    · rw [if_pos hbr]
      have hlt : prefixW a (next + 1) < rank₀ := by
        rw [prefixW_succ]
        omega
      have hPgt : next + 1 < P := by
        by_contra hc
        push_neg at hc
        have := prefixW_mono a hc
        omega
      have hPeq : P = next + 2 := by omega
      rw [hPeq]
      norm_num
    · rw [if_neg hbr]
      have hge : rank₀ ≤ prefixW a (next + 1) := by
        rw [prefixW_succ]
        omega
      have hPle : P ≤ next + 1 := by
        by_contra hc
        push_neg at hc
        have h1 : next + 1 ≤ P - 1 := by omega
        have := prefixW_mono a h1
        omega
      omega
  | succ s ih =>
    intro next hmod hbound hPlo hPhi
    have hcand : next + 2 ^ (s + 1) ≤ M := by
      have : 2 ^ (s + 1) ≤ 2 ^ (s + 2) := Nat.pow_le_pow_right (by norm_num) (by omega)
      omega
    have hc32 : next + 2 ^ (s + 1) < 2 ^ 32 := by omega
    have hlb : valueOfLowest1Bit (next + 2 ^ (s + 1)) = 2 ^ (s + 1) :=
      lowBit_block hmod hc32
    have h2p1 : 1 ≤ 2 ^ (s + 1) := Nat.one_le_two_pow
    have hcell := inv (next + 2 ^ (s + 1)) (by omega) hcand
    rw [hlb] at hcell
    simp only [shiftTemp] at hcell
    have hsub : next + 2 ^ (s + 1) - 2 ^ (s + 1) = next := by omega
    rw [hsub] at hcell
    have hsplit := prefixW_split a (show next ≤ next + 2 ^ (s + 1) by omega)
    have hprefnext : prefixW a next < rank₀ := by
      have h1 : prefixW a next ≤ prefixW a (P - 1) := prefixW_mono a (by omega)
      omega
    have hshift : 2 ^ (s + 1) >>> 1 = 2 ^ s := by
      rw [Nat.shiftRight_one, pow_succ, Nat.mul_div_cancel _ (by norm_num)]
    simp only [ostSelectGo, hcell, hshift]
    by_cases hbr : (∑ q ∈ Finset.Ioc next (next + 2 ^ (s + 1)), a q)
        < rank₀ - prefixW a next
    · rw [if_pos hbr]
      have hlt : prefixW a (next + 2 ^ (s + 1)) < rank₀ := by omega
      have hPgt : next + 2 ^ (s + 1) < P := by
        by_contra hc
        push_neg at hc
        have := prefixW_mono a hc
        omega
      have hrank : rank₀ - prefixW a next
            - ∑ q ∈ Finset.Ioc next (next + 2 ^ (s + 1)), a q
          = rank₀ - prefixW a (next + 2 ^ (s + 1)) := by omega
      rw [hrank]
      apply ih (next + 2 ^ (s + 1))
      · have h1 : (2 ^ (s + 2) : ℕ) = 2 ^ (s + 1) * 2 := by ring
        obtain ⟨m, hm⟩ := Nat.dvd_iff_mod_eq_zero.mpr hmod
        have : next + 2 ^ (s + 1) = 2 ^ (s + 1) * (2 * m + 1) := by
          rw [hm]; ring
        rw [this, Nat.mul_mod_right]
      · have : next + 2 ^ (s + 2) = next + 2 ^ (s + 1) + 2 ^ (s + 1) := by
          ring
        omega
      · exact hPgt
      · have : next + 2 ^ (s + 2) = next + 2 ^ (s + 1) + 2 ^ (s + 1) := by
          ring
        omega
    · rw [if_neg hbr]
      have hge : rank₀ ≤ prefixW a (next + 2 ^ (s + 1)) := by omega
      have hPle : P ≤ next + 2 ^ (s + 1) := by
        by_contra hc
        push_neg at hc
        have h1 : next + 2 ^ (s + 1) ≤ P - 1 := by omega
        have := prefixW_mono a h1
        omega
      exact ih next (by
          have h1 : (2 : ℕ) ^ (s + 1) ∣ 2 ^ (s + 2) := pow_dvd_pow 2 (by omega)
          have h2 : (2 : ℕ) ^ (s + 2) ∣ next :=
            Nat.dvd_iff_mod_eq_zero.mpr hmod
          exact Nat.dvd_iff_mod_eq_zero.mp (h1.trans h2))
        hcand hPlo hPle

/-- The full descent from the root: with the answer `P` anywhere in
`[1, 2^L]`, the `L+1` iterations of the source loop land on `P - 1`. -/
theorem ostSelect_root {L : ℕ} (hL : 2 ^ L < 2 ^ 31) (temp a : ℕ → ℕ)
    (inv : FenwickInv (2 ^ L) (shiftTemp temp) a) (rank₀ P : ℕ)
    (htot : rank₀ ≤ prefixW a (2 ^ L))
    (hPlow : prefixW a (P - 1) < rank₀) (hPhigh : rank₀ ≤ prefixW a P)
    (hP1 : 1 ≤ P) (hPM : P ≤ 2 ^ L) :
    ostSelectGo temp (L + 1) (2 ^ L) 0 rank₀ = P - 1 := by
  have hlbM : valueOfLowest1Bit (2 ^ L) = 2 ^ L := lowBit_two_pow (by omega)
  have hroot := inv (2 ^ L) Nat.one_le_two_pow (le_refl _)
  rw [hlbM, Nat.sub_self] at hroot
  simp only [shiftTemp] at hroot
  have hroot' : temp (2 ^ L - 1) = prefixW a (2 ^ L) := by
    rw [hroot, prefixW]
  cases L with
  | zero =>
    have hP : P = 1 := by
      norm_num at hPM
      omega
    norm_num at hroot' htot
    simp only [ostSelectGo]
    norm_num
    rw [hroot']
    rw [if_neg (by omega)]
    omega
  | succ L' =>
    simp only [ostSelectGo, Nat.zero_add]
    rw [hroot']
    rw [if_neg (by omega)]
    have hshift : 2 ^ (L' + 1) >>> 1 = 2 ^ L' := by
      rw [Nat.shiftRight_one, pow_succ, Nat.mul_div_cancel _ (by norm_num)]
    rw [hshift]
    have := ostSelectGo_spec hL temp a inv rank₀ P hPlow hPhigh L' 0
      (Nat.zero_mod _) (by omega) (by omega) (by omega)
    rw [prefixW_zero, Nat.sub_zero] at this
    simpa only [ostSelectGo, Nat.zero_add] using this

/-! ### Indicator weights and counting -/

/-- Weight of position `q` (1-based): 1 iff the value `q - 1` is used. -/
def aUsed (used : List ℕ) (q : ℕ) : ℕ :=
  if 1 ≤ q ∧ (q - 1) ∈ used then 1 else 0

/-- Weight of position `q` (1-based): 1 iff the value `q - 1` is unused. -/
def aFree (used : List ℕ) (q : ℕ) : ℕ :=
  if 1 ≤ q ∧ (q - 1) ∉ used then 1 else 0

theorem prefixW_indicator (P : ℕ → Prop) [DecidablePred P] (c : ℕ) :
    prefixW (fun q => if 1 ≤ q ∧ P (q - 1) then 1 else 0) c
      = ((List.range c).filter (fun v => decide (P v))).length := by
  induction c with
  | zero => simp [prefixW_zero]
  | succ c ih =>
    rw [prefixW_succ, ih, List.range_succ, List.filter_append,
      List.length_append]
    congr 1
    by_cases h : P c <;> simp [h]

/-- Number of used values below `c`. -/
def countUsedBelow (used : List ℕ) (c : ℕ) : ℕ :=
  ((List.range c).filter (fun v => decide (v ∈ used))).length

/-- Number of unused values below `c`. -/
def countFreeBelow (used : List ℕ) (c : ℕ) : ℕ :=
  ((List.range c).filter (fun v => decide (v ∉ used))).length

theorem prefixW_aUsed (used : List ℕ) (c : ℕ) :
    prefixW (aUsed used) c = countUsedBelow used c :=
  prefixW_indicator (fun v => v ∈ used) c

theorem prefixW_aFree (used : List ℕ) (c : ℕ) :
    prefixW (aFree used) c = countFreeBelow used c :=
  prefixW_indicator (fun v => v ∉ used) c

theorem countBelow_total (used : List ℕ) (c : ℕ) :
    countUsedBelow used c + countFreeBelow used c = c := by
  induction c with
  | zero => simp [countUsedBelow, countFreeBelow]
  | succ c ih =>
    unfold countUsedBelow countFreeBelow at ih ⊢
    rw [List.range_succ, List.filter_append, List.filter_append,
      List.length_append, List.length_append]
    by_cases h : c ∈ used
    · have h1 : List.filter (fun v => decide (v ∈ used)) [c] = [c] := by
        simp [h]
      have h2 : List.filter (fun v => decide (v ∉ used)) [c] = [] := by
        simp [h]
      rw [h1, h2]
      simp only [List.length_cons, List.length_nil]
      omega
    · have h1 : List.filter (fun v => decide (v ∈ used)) [c] = [] := by
        simp [h]
      have h2 : List.filter (fun v => decide (v ∉ used)) [c] = [c] := by
        simp [h]
      rw [h1, h2]
      simp only [List.length_cons, List.length_nil]
      omega

theorem countFreeBelow_mono (used : List ℕ) {b c : ℕ} (h : b ≤ c) :
    countFreeBelow used b ≤ countFreeBelow used c := by
  rw [← prefixW_aFree, ← prefixW_aFree]
  exact prefixW_mono _ h

/-- The unused values below `M`, in increasing order. -/
def unusedList (M : ℕ) (used : List ℕ) : List ℕ :=
  (List.range M).filter (fun v => decide (v ∉ used))

theorem unusedList_split {used : List ℕ} {x M : ℕ} (hx : x ∉ used)
    (hxM : x < M) :
    ∃ tail, unusedList M used = unusedList x used ++ x :: tail ∧
      ∀ v ∈ tail, x < v := by
  unfold unusedList
  refine ⟨((List.range (M - (x + 1))).map ((x + 1) + ·)).filter
    (fun v => decide (v ∉ used)), ?_, ?_⟩
  · conv_lhs => rw [show M = (x + 1) + (M - (x + 1)) by omega]
    rw [List.range_add, List.filter_append, List.range_succ,
      List.filter_append]
    simp [hx]
  · intro v hv
    rw [List.mem_filter, List.mem_map] at hv
    obtain ⟨⟨k, _, rfl⟩, _⟩ := hv
    omega

theorem unusedList_length (M : ℕ) (used : List ℕ) :
    (unusedList M used).length = countFreeBelow used M := rfl

/-- Selecting at the rank of an unused value `x` recovers `x`. -/
theorem unusedList_getD {used : List ℕ} {x M : ℕ} (hx : x ∉ used)
    (hxM : x < M) :
    (unusedList M used).getD (countFreeBelow used x) 0 = x := by
  obtain ⟨tail, htail, _⟩ := unusedList_split hx hxM
  have hlen : (unusedList x used).length = countFreeBelow used x := rfl
  rw [htail, List.getD_eq_getElem?_getD,
    List.getElem?_append_right (le_of_eq hlen)]
  simp [hlen]

/-- Conversely, the element selected at index `j` is unused, below `n`
(whenever `j` is below the free count of `n ≤ M`), and has free-count
exactly `j`. -/
theorem unusedList_getD_inv {used : List ℕ} {n M j : ℕ} (hnM : n ≤ M)
    (hj : j < countFreeBelow used n) :
    (unusedList M used).getD j 0 ∉ used ∧
    (unusedList M used).getD j 0 < n ∧
    countFreeBelow used ((unusedList M used).getD j 0) = j := by
  -- the whole list starts with the sub-list of values below n
  have hsplitn : ∃ tailn, unusedList M used = unusedList n used ++ tailn := by
    unfold unusedList
    refine ⟨((List.range (M - n)).map (n + ·)).filter
      (fun v => decide (v ∉ used)), ?_⟩
    conv_lhs => rw [show M = n + (M - n) by omega]
    rw [List.range_add, List.filter_append]
  obtain ⟨tailn, htailn⟩ := hsplitn
  have hlenn : (unusedList n used).length = countFreeBelow used n := rfl
  have hjlen : j < (unusedList n used).length := by omega
  have hget : (unusedList M used).getD j 0 = (unusedList n used)[j] := by
    rw [htailn, List.getD_eq_getElem _ _ (by rw [List.length_append]; omega)]
    exact List.getElem_append_left hjlen
  set x := (unusedList M used).getD j 0 with hxdef
  have hmem : x ∈ unusedList n used := by
    rw [hget]
    exact List.getElem_mem _
  have hxn : x < n ∧ x ∉ used := by
    unfold unusedList at hmem
    rw [List.mem_filter, List.mem_range] at hmem
    simpa using hmem
  refine ⟨hxn.2, hxn.1, ?_⟩
  -- split the below-n list at x itself
  obtain ⟨tail, htail, htgt⟩ := unusedList_split hxn.2 hxn.1
  have hlenx : (unusedList x used).length = countFreeBelow used x := rfl
  have hx? : (unusedList n used)[j]? = some x := by
    rw [List.getElem?_eq_getElem hjlen, ← hget, hxdef]
  -- x sits at index countFreeBelow used x; show j is neither smaller nor
  -- larger
  rcases lt_trichotomy j (countFreeBelow used x) with hlt | heq | hgt
  · -- (unusedList n used)[j] would then be an element of unusedList x used,
    -- hence < x, contradicting that it equals x
    have hjx : j < (unusedList x used).length := by omega
    have h1 : (unusedList n used)[j]? = (unusedList x used)[j]? := by
      rw [htail]
      exact List.getElem?_append_left hjx
    have h2 : x ∈ unusedList x used :=
      List.getElem?_mem (h1.symm.trans hx?)
    have h3 : x < x := by
      unfold unusedList at h2
      rw [List.mem_filter, List.mem_range] at h2
      exact h2.1
    omega
  · exact heq.symm
  · -- (unusedList n used)[j] would be an element of the tail, hence > x
    have hk1 : (unusedList x used).length ≤ j := by omega
    have h1 : (unusedList n used)[j]?
        = (x :: tail)[j - (unusedList x used).length]? := by
      rw [htail]
      exact List.getElem?_append_right hk1
    have hsub : j - (unusedList x used).length
        = (j - (unusedList x used).length - 1) + 1 := by
      rw [hlenx]; omega
    rw [hsub, List.getElem?_cons_succ] at h1
    have h2 : x ∈ tail := List.getElem?_mem (h1.symm.trans hx?)
    have := htgt x h2
    omega

/-! ### The specification of the Lehmer transforms -/

/-- Specification of the encoder: each entry is the rank of the next value
among the not-yet-used values. -/
def specEncodeGo : List ℕ → List ℕ → List ℕ
  | _, [] => []
  | used, s :: rest => countFreeBelow used s :: specEncodeGo (used ++ [s]) rest

/-- Specification of the decoder: each entry selects the value of that rank
among the not-yet-used values. -/
def specDecodeGo (M : ℕ) : List ℕ → List ℕ → List ℕ
  | _, [] => []
  | used, c :: rest =>
    (unusedList M used).getD c 0
      :: specDecodeGo M (used ++ [(unusedList M used).getD c 0]) rest

theorem specEncodeGo_length (rest : List ℕ) :
    ∀ used, (specEncodeGo used rest).length = rest.length := by
  induction rest with
  | nil => intro used; rfl
  | cons s rest ih => intro used; simp [specEncodeGo, ih]

theorem specDecodeGo_length (M : ℕ) (code : List ℕ) :
    ∀ used, (specDecodeGo M used code).length = code.length := by
  induction code with
  | nil => intro used; rfl
  | cons c rest ih => intro used; simp [specDecodeGo, ih]

theorem countUsedBelow_succ (used : List ℕ) (c : ℕ) :
    countUsedBelow used (c + 1)
      = countUsedBelow used c + (if c ∈ used then 1 else 0) := by
  unfold countUsedBelow
  rw [List.range_succ, List.filter_append, List.length_append]
  by_cases h : c ∈ used <;> simp [h]

theorem countFreeBelow_succ (used : List ℕ) (c : ℕ) :
    countFreeBelow used (c + 1)
      = countFreeBelow used c + (if c ∈ used then 0 else 1) := by
  unfold countFreeBelow
  rw [List.range_succ, List.filter_append, List.length_append]
  by_cases h : c ∈ used <;> simp [h]

/-- For a duplicate-free list of values below `n`, the used-count below `n`
is the list length. -/
theorem countUsedBelow_eq_length {used : List ℕ} {n : ℕ} (hnd : used.Nodup)
    (hlt : ∀ x ∈ used, x < n) :
    countUsedBelow used n = used.length := by
  have hperm : List.Perm ((List.range n).filter (fun v => decide (v ∈ used)))
      used := by
    rw [List.perm_ext_iff_of_nodup (List.Nodup.filter _ (List.nodup_range n))
      hnd]
    intro v
    rw [List.mem_filter, List.mem_range]
    constructor
    · rintro ⟨_, h⟩
      simpa using h
    · intro h
      exact ⟨hlt v h, by simpa using h⟩
  exact hperm.length_eq

theorem aUsed_bump (used : List ℕ) (s : ℕ) (hs : s ∉ used) :
    (fun q => if q = s + 1 then aUsed used q + 1 else aUsed used q)
      = aUsed (used ++ [s]) := by
  funext q
  by_cases hq : q = s + 1
  · subst hq
    simp [aUsed, hs]
  · unfold aUsed
    by_cases h1 : 1 ≤ q
    · have hne : q - 1 ≠ s := by omega
      simp [hq, h1, hne]
    · simp [hq, h1]

theorem aFree_debump (used : List ℕ) (x : ℕ) (hx : x ∉ used) :
    (fun q => if q = x + 1 then aFree used q - 1 else aFree used q)
      = aFree (used ++ [x]) := by
  funext q
  by_cases hq : q = x + 1
  · subst hq
    simp [aFree, hx]
  · unfold aFree
    by_cases h1 : 1 ≤ q
    · have hne : q - 1 ≠ x := by omega
      simp [hq, h1, hne]
    · simp [hq, h1]

theorem fenwickInv_zeros (n : ℕ) : FenwickInv n (fun _ => 0) (aUsed []) := by
  intro c hc1 hcN
  simp [aUsed]

theorem fenwickInv_init {M : ℕ} (hM : M < 2 ^ 31) :
    FenwickInv M (shiftTemp (fun i => valueOfLowest1Bit (i + 1)))
      (aFree []) := by
  intro c hc1 hcM
  simp only [shiftTemp]
  rw [show c - 1 + 1 = c by omega]
  have hsum : ∑ q ∈ Finset.Ioc (c - valueOfLowest1Bit c) c, aFree [] q
      = (Finset.Ioc (c - valueOfLowest1Bit c) c).card := by
    rw [Finset.card_eq_sum_ones]
    apply Finset.sum_congr rfl
    intro q hq
    rw [Finset.mem_Ioc] at hq
    simp [aFree, show 1 ≤ q by omega]
  rw [hsum, Nat.card_Ioc]
  have := lowBit_le (show 0 < c by omega) (show c < 2 ^ 32 by omega)
  omega

/-! ### `CeilLog2Nonzero` bounds -/

theorem ceilLog2Go_ge : ∀ (fuel k n : ℕ), n ≤ 2 ^ (k + fuel) →
    n ≤ 2 ^ ceilLog2Go fuel k n := by
  intro fuel
  induction fuel with
  | zero => intro k n h; simpa using h
  | succ fuel ih =>
    intro k n h
    simp only [ceilLog2Go]
    by_cases hk : n ≤ 2 ^ k
    · rwa [if_pos hk]
    · rw [if_neg hk]
      apply ih
      rw [show k + 1 + fuel = k + (fuel + 1) by omega]
      exact h

theorem ceilLog2Go_min : ∀ (fuel k n m : ℕ), k ≤ m → n ≤ 2 ^ m →
    ceilLog2Go fuel k n ≤ m := by
  intro fuel
  induction fuel with
  | zero => intro k n m hk _; simpa using hk
  | succ fuel ih =>
    intro k n m hk hm
    simp only [ceilLog2Go]
    by_cases h : n ≤ 2 ^ k
    · rwa [if_pos h]
    · rw [if_neg h]
      apply ih _ _ _ _ hm
      rcases Nat.eq_or_lt_of_le hk with rfl | hlt
      · exact absurd hm h
      · omega

theorem ceilLog2_ge (n : ℕ) : n ≤ 2 ^ ceilLog2Nonzero n :=
  ceilLog2Go_ge n 0 n (by simpa using Nat.le_of_lt (Nat.lt_two_pow n))

theorem ceilLog2_min {n m : ℕ} (h : n ≤ 2 ^ m) : ceilLog2Nonzero n ≤ m :=
  ceilLog2Go_min n 0 n m (Nat.zero_le m) h

theorem computeLehmerCode_def (perm : List ℕ) :
    computeLehmerCode perm = computeLehmerGo perm.length perm (fun _ => 0) :=
  rfl

theorem decodeLehmerCode_def (code : List ℕ) :
    decodeLehmerCode code
      = decodeLehmerGo (2 ^ ceilLog2Nonzero code.length)
        (ceilLog2Nonzero code.length) code
        (fun i => valueOfLowest1Bit (i + 1)) := rfl

theorem nodup_bounded_length {l : List ℕ} {n : ℕ} (hnd : l.Nodup)
    (hlt : ∀ x ∈ l, x < n) : l.length ≤ n := by
  have hsub : l ⊆ List.range n := by
    intro x hx
    rw [List.mem_range]
    exact hlt x hx
  have := (List.subperm_of_subset hnd hsub).length_le
  simpa using this

/-- The Fenwick-tree encoder computes the specification ranks. -/
theorem computeLehmerGo_eq {n : ℕ} (hn : n < 2 ^ 31) :
    ∀ (rest used : List ℕ) (temp : ℕ → ℕ),
      (∀ x ∈ rest, x < n) → (∀ x ∈ rest, x ∉ used) → rest.Nodup →
      FenwickInv n temp (aUsed used) →
      computeLehmerGo n rest temp = specEncodeGo used rest := by
  intro rest
  induction rest with
  | nil => intro used temp _ _ _ _; rfl
  | cons s rest ih =>
    intro used temp hlt hnotin hnd inv
    have hsn : s < n := hlt s (by simp)
    have hsu : s ∉ used := hnotin s (by simp)
    simp only [computeLehmerGo, specEncodeGo]
    congr 1
    · rw [fenwickQuery_prefixSum hn temp _ inv (s + 1) (by omega),
        prefixW_aUsed, countUsedBelow_succ]
      have htot := countBelow_total used s
      simp only [hsu, if_neg, if_false]
      omega
    · apply ih (used ++ [s])
      · intro x hx; exact hlt x (by simp [hx])
      · intro x hx
        simp only [List.mem_append, List.mem_singleton]
        rintro (h | rfl)
        · exact hnotin x (by simp [hx]) h
        · exact (List.nodup_cons.mp hnd).1 hx
      · exact (List.nodup_cons.mp hnd).2
      · have := fenwickAdd_inv hn temp (aUsed used) inv (s + 1) (by omega)
          (by omega)
        rwa [aUsed_bump used s hsu] at this

/-- The order-statistics decoder computes the specification selections. -/
theorem decodeLehmerGo_eq {n L : ℕ} (hnL : n ≤ 2 ^ L) (hL : 2 ^ L < 2 ^ 31) :
    ∀ (code used : List ℕ) (temp : ℕ → ℕ),
      used.Nodup → (∀ x ∈ used, x < n) →
      (∀ k, k < code.length → code.getD k 0 + used.length + k < n) →
      FenwickInv (2 ^ L) (shiftTemp temp) (aFree used) →
      decodeLehmerGo (2 ^ L) L code temp = specDecodeGo (2 ^ L) used code := by
  intro code
  induction code with
  | nil => intro used temp _ _ _ _; rfl
  | cons c rest ih =>
    intro used temp hnd hbnd hvalid inv
    have hc0 : c + used.length < n := by
      have := hvalid 0 (by simp)
      simpa using this
    have hcu : countUsedBelow used n = used.length :=
      countUsedBelow_eq_length hnd hbnd
    have hcf : countFreeBelow used n = n - used.length := by
      have := countBelow_total used n
      omega
    have hj : c < countFreeBelow used n := by omega
    obtain ⟨hxu, hxn, hxc⟩ := unusedList_getD_inv hnL hj
    set x := (unusedList (2 ^ L) used).getD c 0 with hxdef
    have hsel : ostSelectGo temp (L + 1) (2 ^ L) 0 (c + 1) = x := by
      have h1 : prefixW (aFree used) (x + 1 - 1) < c + 1 := by
        simp only [Nat.add_sub_cancel]
        rw [prefixW_aFree, hxc]
        omega
      have h2 : c + 1 ≤ prefixW (aFree used) (x + 1) := by
        rw [prefixW_aFree, countFreeBelow_succ]
        simp only [hxu, if_neg, if_false]
        omega
      have h3 : c + 1 ≤ prefixW (aFree used) (2 ^ L) := by
        rw [prefixW_aFree]
        have := countFreeBelow_mono used hnL
        omega
      have := ostSelect_root hL temp (aFree used) inv (c + 1) (x + 1)
        h3 h1 h2 (by omega) (by omega)
      simpa using this
    simp only [decodeLehmerGo, specDecodeGo]
    rw [hsel]
    congr 1
    apply ih (used ++ [x])
    · rw [List.nodup_append]
      refine ⟨hnd, by simp, ?_⟩
      intro a ha
      simp only [List.mem_singleton]
      rintro rfl
      exact hxu ha
    · intro y hy
      simp only [List.mem_append, List.mem_singleton] at hy
      rcases hy with h | rfl
      · exact hbnd y h
      · exact hxn
    · intro k hk
      have := hvalid (k + 1) (by simpa using Nat.succ_lt_succ hk)
      simp only [List.getD_cons_succ] at this
      simp only [List.length_append, List.length_singleton]
      omega
    · have := ostMark_inv hL temp (aFree used) inv (x + 1) (by omega)
        (by omega) (by simp [aFree, hxu])
      rwa [aFree_debump used x hxu] at this

/-- Every rank the specification encoder emits satisfies the validity bound
`code[k] + |used| + k < n`. -/
theorem specEncodeGo_valid {n : ℕ} :
    ∀ (rest used : List ℕ), used.Nodup → (∀ x ∈ used, x < n) →
      (∀ x ∈ rest, x < n) → (∀ x ∈ rest, x ∉ used) → rest.Nodup →
      ∀ k, k < rest.length →
        (specEncodeGo used rest).getD k 0 + used.length + k < n := by
  intro rest
  induction rest with
  | nil => intro used _ _ _ _ _ k hk; simp at hk
  | cons s rest ih =>
    intro used hund husd hlt hnotin hnd k hk
    have hsu : s ∉ used := hnotin s (by simp)
    have hsn : s < n := hlt s (by simp)
    cases k with
    | zero =>
      simp only [specEncodeGo, List.getD_cons_zero]
      have hmono : countFreeBelow used (s + 1) ≤ countFreeBelow used n :=
        countFreeBelow_mono used (by omega)
      have hsucc := countFreeBelow_succ used s
      have htot := countBelow_total used n
      have heq := countUsedBelow_eq_length hund husd
      simp only [hsu, if_neg, if_false] at hsucc
      omega
    | succ k =>
      simp only [specEncodeGo, List.getD_cons_succ]
      have hund' : (used ++ [s]).Nodup := by
        rw [List.nodup_append]
        refine ⟨hund, by simp, ?_⟩
        intro a ha
        simp only [List.mem_singleton]
        rintro rfl
        exact hsu ha
      have husd' : ∀ x ∈ used ++ [s], x < n := by
        intro y hy
        simp only [List.mem_append, List.mem_singleton] at hy
        rcases hy with h | rfl
        · exact husd y h
        · exact hsn
      have hnotin' : ∀ x ∈ rest, x ∉ used ++ [s] := by
        intro x hx
        simp only [List.mem_append, List.mem_singleton]
        rintro (h | rfl)
        · exact hnotin x (by simp [hx]) h
        · exact (List.nodup_cons.mp hnd).1 hx
      have := ih (used ++ [s]) hund' husd'
        (fun x hx => hlt x (by simp [hx])) hnotin'
        (List.nodup_cons.mp hnd).2 k (by simpa using hk)
      simp only [List.length_append, List.length_singleton] at this
      omega

/-- Decoding the specification encoder's output recovers the input list. -/
theorem specDecode_specEncode {M : ℕ} :
    ∀ (rest used : List ℕ), (∀ x ∈ rest, x < M) → (∀ x ∈ rest, x ∉ used) →
      rest.Nodup →
      specDecodeGo M used (specEncodeGo used rest) = rest := by
  intro rest
  induction rest with
  | nil => intro used _ _ _; rfl
  | cons s rest ih =>
    intro used hlt hnotin hnd
    have hsu : s ∉ used := hnotin s (by simp)
    have hsM : s < M := hlt s (by simp)
    simp only [specEncodeGo, specDecodeGo]
    rw [unusedList_getD hsu hsM]
    congr 1
    apply ih (used ++ [s])
    · intro x hx; exact hlt x (by simp [hx])
    · intro x hx
      simp only [List.mem_append, List.mem_singleton]
      rintro (h | rfl)
      · exact hnotin x (by simp [hx]) h
      · exact (List.nodup_cons.mp hnd).1 hx
    · exact (List.nodup_cons.mp hnd).2

/-- The specification decoder yields values below `n`, outside `used`, and
without duplicates. -/
theorem specDecodeGo_props {n M : ℕ} (hnM : n ≤ M) :
    ∀ (code used : List ℕ), used.Nodup → (∀ x ∈ used, x < n) →
      (∀ k, k < code.length → code.getD k 0 + used.length + k < n) →
      (∀ y ∈ specDecodeGo M used code, y < n ∧ y ∉ used) ∧
      (specDecodeGo M used code).Nodup := by
  intro code
  induction code with
  | nil =>
    intro used _ _ _
    exact ⟨by simp [specDecodeGo], by simp [specDecodeGo]⟩
  | cons c rest ih =>
    intro used hnd hbnd hvalid
    have hc0 : c + used.length < n := by
      have := hvalid 0 (by simp)
      simpa using this
    have hcu := countUsedBelow_eq_length hnd hbnd
    have htot := countBelow_total used n
    have hj : c < countFreeBelow used n := by omega
    obtain ⟨hxu, hxn, hxc⟩ := unusedList_getD_inv hnM hj
    have hnd' : (used ++ [(unusedList M used).getD c 0]).Nodup := by
      rw [List.nodup_append]
      refine ⟨hnd, by simp, ?_⟩
      intro a ha
      simp only [List.mem_singleton]
      rintro rfl
      exact hxu ha
    have hbnd' : ∀ y ∈ used ++ [(unusedList M used).getD c 0], y < n := by
      intro y hy
      simp only [List.mem_append, List.mem_singleton] at hy
      rcases hy with h | rfl
      · exact hbnd y h
      · exact hxn
    have hvalid' : ∀ k, k < rest.length →
        rest.getD k 0 + (used ++ [(unusedList M used).getD c 0]).length + k
          < n := by
      intro k hk
      have := hvalid (k + 1) (by simpa using Nat.succ_lt_succ hk)
      simp only [List.getD_cons_succ] at this
      simp only [List.length_append, List.length_singleton]
      omega
    obtain ⟨hmem, hndtail⟩ := ih _ hnd' hbnd' hvalid'
    constructor
    · intro y hy
      simp only [specDecodeGo] at hy
      rcases List.mem_cons.mp hy with rfl | hy
      · exact ⟨hxn, hxu⟩
      · have := hmem y hy
        exact ⟨this.1, fun hyu => this.2 (by simp [hyu])⟩
    · simp only [specDecodeGo, List.nodup_cons]
      refine ⟨fun hx => ?_, hndtail⟩
      exact (hmem _ hx).2 (by simp)

/-- Encoding the specification decoder's output recovers the code. -/
theorem specEncode_specDecode {n M : ℕ} (hnM : n ≤ M) :
    ∀ (code used : List ℕ), used.Nodup → (∀ x ∈ used, x < n) →
      (∀ k, k < code.length → code.getD k 0 + used.length + k < n) →
      specEncodeGo used (specDecodeGo M used code) = code := by
  intro code
  induction code with
  | nil => intro used _ _ _; rfl
  | cons c rest ih =>
    intro used hnd hbnd hvalid
    have hc0 : c + used.length < n := by
      have := hvalid 0 (by simp)
      simpa using this
    have hcu := countUsedBelow_eq_length hnd hbnd
    have htot := countBelow_total used n
    have hj : c < countFreeBelow used n := by omega
    obtain ⟨hxu, hxn, hxc⟩ := unusedList_getD_inv hnM hj
    simp only [specDecodeGo, specEncodeGo]
    rw [hxc]
    congr 1
    apply ih (used ++ [(unusedList M used).getD c 0])
    · rw [List.nodup_append]
      refine ⟨hnd, by simp, ?_⟩
      intro a ha
      simp only [List.mem_singleton]
      rintro rfl
      exact hxu ha
    · intro y hy
      simp only [List.mem_append, List.mem_singleton] at hy
      rcases hy with h | rfl
      · exact hbnd y h
      · exact hxn
    · intro k hk
      have := hvalid (k + 1) (by simpa using Nat.succ_lt_succ hk)
      simp only [List.getD_cons_succ] at this
      simp only [List.length_append, List.length_singleton]
      omega

/-- C5: `ComputeLehmerCode` and `DecodeLehmerCode` are mutually inverse: for
every permutation `perm` of `0..n-1` (any `n ≤ 2^30`, so in particular every
`n ≤ 1024`), decoding the computed Lehmer code recovers `perm`; and for every
valid Lehmer code (`code[k] + k < n` at every index), computing the code of
the decoded permutation recovers the code. -/
theorem lehmer_roundtrip (perm code : List ℕ)
    (hpnd : perm.Nodup) (hpb : ∀ x ∈ perm, x < perm.length)
    (hpsz : perm.length ≤ 2 ^ 30)
    (hcv : ∀ k, k < code.length → code.getD k 0 + k < code.length)
    (hcsz : code.length ≤ 2 ^ 30) :
    decodeLehmerCode (computeLehmerCode perm) = perm ∧
    computeLehmerCode (decodeLehmerCode code) = code := by
  have h3031 : (2 : ℕ) ^ 30 < 2 ^ 31 := by norm_num
  constructor
  · -- decode ∘ encode
    have hn31 : perm.length < 2 ^ 31 := by omega
    have henc : computeLehmerCode perm = specEncodeGo [] perm := by
      rw [computeLehmerCode_def]
      exact computeLehmerGo_eq hn31 perm [] _ hpb (by simp) hpnd
        (fenwickInv_zeros _)
    have hlen : (specEncodeGo [] perm).length = perm.length :=
      specEncodeGo_length perm []
    have hL : ceilLog2Nonzero perm.length ≤ 30 := ceilLog2_min hpsz
    have h2L : 2 ^ ceilLog2Nonzero perm.length < 2 ^ 31 :=
      lt_of_le_of_lt (Nat.pow_le_pow_right (by norm_num) hL) h3031
    have hn2L : perm.length ≤ 2 ^ ceilLog2Nonzero perm.length :=
      ceilLog2_ge _
    have hval : ∀ k, k < (specEncodeGo [] perm).length →
        (specEncodeGo [] perm).getD k 0 + ([] : List ℕ).length + k
          < perm.length := by
      intro k hk
      rw [hlen] at hk
      exact specEncodeGo_valid perm [] (by simp) (by simp) hpb (by simp)
        hpnd k hk
    have hdec : decodeLehmerCode (specEncodeGo [] perm)
        = specDecodeGo (2 ^ ceilLog2Nonzero perm.length) []
          (specEncodeGo [] perm) := by
      rw [decodeLehmerCode_def, hlen]
      exact decodeLehmerGo_eq hn2L h2L _ [] _ (by simp) (by simp) hval
        (fenwickInv_init h2L)
    rw [henc, hdec]
    exact specDecode_specEncode perm []
      (fun x hx => lt_of_lt_of_le (hpb x hx) hn2L) (by simp) hpnd
  · -- encode ∘ decode
    have hn31 : code.length < 2 ^ 31 := by omega
    have hL : ceilLog2Nonzero code.length ≤ 30 := ceilLog2_min hcsz
    have h2L : 2 ^ ceilLog2Nonzero code.length < 2 ^ 31 :=
      lt_of_le_of_lt (Nat.pow_le_pow_right (by norm_num) hL) h3031
    have hn2L : code.length ≤ 2 ^ ceilLog2Nonzero code.length :=
      ceilLog2_ge _
    have hval : ∀ k, k < code.length →
        code.getD k 0 + ([] : List ℕ).length + k < code.length := by
      intro k hk
      have := hcv k hk
      simpa using this
    have hdec : decodeLehmerCode code
        = specDecodeGo (2 ^ ceilLog2Nonzero code.length) [] code := by
      rw [decodeLehmerCode_def]
      exact decodeLehmerGo_eq hn2L h2L _ [] _ (by simp) (by simp) hval
        (fenwickInv_init h2L)
    obtain ⟨hmem, hndp⟩ := specDecodeGo_props hn2L code [] (by simp)
      (by simp) hval
    have hplen : (specDecodeGo (2 ^ ceilLog2Nonzero code.length) []
        code).length = code.length := specDecodeGo_length _ code []
    have henc : computeLehmerCode
        (specDecodeGo (2 ^ ceilLog2Nonzero code.length) [] code)
        = specEncodeGo []
          (specDecodeGo (2 ^ ceilLog2Nonzero code.length) [] code) := by
      rw [computeLehmerCode_def, hplen]
      exact computeLehmerGo_eq hn31 _ [] _ (fun y hy => (hmem y hy).1)
        (fun y hy => by simp) hndp (fenwickInv_zeros _)
    rw [hdec, henc]
    exact specEncode_specDecode hn2L code [] (by simp) (by simp) hval

/-- Witness for C5 at the concrete permutation `[3,1,4,0,5,2,7,6]` and the
concrete valid code `[3,1,2,0,1,0,1,0]`. -/
theorem lehmer_roundtrip_witness :
    decodeLehmerCode (computeLehmerCode [3, 1, 4, 0, 5, 2, 7, 6])
        = [3, 1, 4, 0, 5, 2, 7, 6] ∧
    computeLehmerCode (decodeLehmerCode [3, 1, 2, 0, 1, 0, 1, 0])
        = [3, 1, 2, 0, 1, 0, 1, 0] :=
  lehmer_roundtrip [3, 1, 4, 0, 5, 2, 7, 6] [3, 1, 2, 0, 1, 0, 1, 0]
    (by decide) (by decide) (by norm_num) (by decide) (by norm_num)

/-- C6 (amended): `ComputeLehmerCode` computes at each position the rank of
the value among the not-yet-used values (the specification encoder
`specEncodeGo`, whose entry is `countFreeBelow used s`); but for the
permutation `p = [3,1,4,0,5,2,7,6]` the code is `[3,1,2,0,1,0,1,0]` — not the
spec's `[3,1,3,0,2,3,1,0]` — and `DecodeLehmerCode` recovers `p` from it. -/
theorem computeLehmer_rank (perm : List ℕ)
    (hpnd : perm.Nodup) (hpb : ∀ x ∈ perm, x < perm.length)
    (hpsz : perm.length ≤ 2 ^ 30) :
    computeLehmerCode perm = specEncodeGo [] perm ∧
    computeLehmerCode [3, 1, 4, 0, 5, 2, 7, 6] = [3, 1, 2, 0, 1, 0, 1, 0] ∧
    decodeLehmerCode [3, 1, 2, 0, 1, 0, 1, 0] = [3, 1, 4, 0, 5, 2, 7, 6] := by
  refine ⟨?_, by decide, by decide⟩
  have hn31 : perm.length < 2 ^ 31 := by
    have : (2 : ℕ) ^ 30 < 2 ^ 31 := by norm_num
    omega
  rw [computeLehmerCode_def]
  exact computeLehmerGo_eq hn31 perm [] _ hpb (by simp) hpnd
    (fenwickInv_zeros _)

/-- Witness for the amended C6 at the concrete permutation `[1, 0, 2]`. -/
theorem computeLehmer_rank_witness :
    computeLehmerCode [1, 0, 2] = specEncodeGo [] [1, 0, 2] ∧
    computeLehmerCode [3, 1, 4, 0, 5, 2, 7, 6] = [3, 1, 2, 0, 1, 0, 1, 0] ∧
    decodeLehmerCode [3, 1, 2, 0, 1, 0, 1, 0] = [3, 1, 4, 0, 5, 2, 7, 6] :=
  computeLehmer_rank [1, 0, 2] (by decide) (by decide) (by norm_num)

/-- C6 counterexample: the spec's worked example is wrong.
`ComputeLehmerCode [3,1,4,0,5,2,7,6]` is not `[3,1,3,0,2,3,1,0]`, and
decoding `[3,1,3,0,2,3,1,0]` does not recover the permutation. -/
theorem computeLehmer_example_counterexample :
    computeLehmerCode [3, 1, 4, 0, 5, 2, 7, 6] ≠ [3, 1, 3, 0, 2, 3, 1, 0] ∧
    decodeLehmerCode [3, 1, 3, 0, 2, 3, 1, 0] ≠ [3, 1, 4, 0, 5, 2, 7, 6] := by
  decide

/-! ### ICCReader::Process (icc_codec.cc lines 366-410)

The decoding machinery behind `ReadHybridUint` (ANS reader + `BitReader`) is
abstracted as a deterministic state machine: `read i b1 b2 σ` performs
`ans_reader_.ReadHybridUint(ICCANSContext(i_, decompressed_[i_-1],
decompressed_[i_-2]), reader, context_map_)` and returns the new combined
state with the decoded byte; `ok` is `CheckEOI` / `AllReadsWithinBounds`,
`bits` is `TotalBitsConsumed() - used_bits_base_`, and `finalOk` is
`CheckANSFinalState`.  `ans_reader_.Save`/`Restore` plus the
`bits_to_skip_`-based reader re-positioning of `Init` amount to saving and
restoring this combined state, which the model does by keeping the saved
state as a value.  The expansion check at lines 389-393 stays a
parameter `corrupt i bitsUsed` in this section (its float arithmetic is
modelled exactly by `floatExpansionCheck` further below, which can
instantiate it); `kMaxCheckpointInterval`
(declared in dec_ans.h, not part of this snapshot) is the parameter
`interval`.  `decompressed_` is modelled as the list of bytes written so
far (the `resize` calls only manage capacity; cells at or above `i_` are
never read before being written). -/

structure AnsMachine (S : Type) where
  read : ℕ → ℕ → ℕ → S → S × ℕ
  ok : S → Bool
  bits : S → ℕ
  finalOk : S → Bool

inductive ProcOut (S : Type) where
  | done (bytes : List ℕ) (skip : ℕ)
  | notEnough (σ : S) (i : ℕ) (skip : ℕ) (dec : List ℕ)
  | corrupted (msg : String)

/-- End of the loop (lines 403-409): `check_and_restore()`, set
`bits_to_skip_`, then `CheckANSFinalState`. -/
def processExit {S : Type} (M : AnsMachine S) (σ : S) (dec : List ℕ)
    (sσ : S) (si skip : ℕ) : ProcOut S :=
  if M.ok σ then
    if M.finalOk σ then ProcOut.done dec (M.bits σ)
    else ProcOut.corrupted "Corrupted ICC profile"
  else ProcOut.notEnough sσ si skip dec

/-- The `for (; i_ < enc_size_; i_++)` loop of `Process` (lines 385-402):
at every positive multiple of the checkpoint interval, `check_and_restore()`
(return `NotEnoughBytes` with the checkpoint state on out-of-bounds), then
`save()` and the expansion check; each iteration decodes one byte with the
two previous bytes as context.  `fuel` is `enc_size_ - i_`. -/
def processGo {S : Type} (M : AnsMachine S) (corrupt : ℕ → ℕ → Bool)
    (encSize interval : ℕ) :
    ℕ → ℕ → S → List ℕ → S → ℕ → ℕ → ProcOut S
  | 0, _, σ, dec, sσ, si, skip => processExit M σ dec sσ si skip
  | fuel + 1, i, σ, dec, sσ, si, skip =>
    if i < encSize then
      if i % interval = 0 ∧ 0 < i then
        if M.ok σ then
          if i &&& 65535 = 0 ∧ corrupt i (M.bits σ) = true then
            ProcOut.corrupted "Corrupted stream"
          else
            processGo M corrupt encSize interval fuel (i + 1)
              (M.read i (dec.getD (i - 1) 0) (dec.getD (i - 2) 0) σ).1
              (dec ++ [(M.read i (dec.getD (i - 1) 0) (dec.getD (i - 2) 0)
                σ).2])
              σ i (M.bits σ)
        else ProcOut.notEnough sσ si skip dec
      else
        processGo M corrupt encSize interval fuel (i + 1)
          (M.read i (dec.getD (i - 1) 0) (dec.getD (i - 2) 0) σ).1
          (dec ++ [(M.read i (dec.getD (i - 1) 0) (dec.getD (i - 2) 0) σ).2])
          sσ si skip
    else processExit M σ dec sσ si skip

/-- `ICCReader::Process`: `save()` at entry, then the loop. -/
def process {S : Type} (M : AnsMachine S) (corrupt : ℕ → ℕ → Bool)
    (encSize interval i0 : ℕ) (σ0 : S) (dec0 : List ℕ) : ProcOut S :=
  processGo M corrupt encSize interval (encSize - i0) i0 σ0 dec0 σ0 i0
    (M.bits σ0)

theorem take_append_le {α : Type} (l t : List α) {n : ℕ}
    (h : n ≤ l.length) : (l ++ t).take n = l.take n := by
  rw [List.take_append_eq_append_take, show n - l.length = 0 by omega]
  simp

/-- Once the truncated reader is out of bounds, the loop reaches the next
checkpoint (or the end), restores the saved state, and returns
`NotEnoughBytes`; only bytes at or after the current index were written in
the meantime. -/
theorem processGo_oob {S : Type} (Mt : AnsMachine S)
    (corrupt : ℕ → ℕ → Bool) (encSize interval : ℕ)
    (hsticky : ∀ i b1 b2 σ, Mt.ok (Mt.read i b1 b2 σ).1 = true →
      Mt.ok σ = true) :
    ∀ (fuel i : ℕ) (σ : S) (dec : List ℕ) (sσ : S) (si skip : ℕ),
      Mt.ok σ = false →
      ∃ t, processGo Mt corrupt encSize interval fuel i σ dec sσ si skip
        = ProcOut.notEnough sσ si skip (dec ++ t) := by
  intro fuel
  induction fuel with
  | zero =>
    intro i σ dec sσ si skip hok
    refine ⟨[], ?_⟩
    simp [processGo, processExit, hok]
  | succ fuel ih =>
    intro i σ dec sσ si skip hok
    by_cases hi : i < encSize
    · by_cases hcp : i % interval = 0 ∧ 0 < i
      · refine ⟨[], ?_⟩
        simp only [processGo]
        rw [if_pos hi, if_pos hcp, if_neg (by simp [hok])]
        simp
      · have hok' : Mt.ok (Mt.read i (dec.getD (i - 1) 0)
            (dec.getD (i - 2) 0) σ).1 = false := by
          cases h : Mt.ok (Mt.read i (dec.getD (i - 1) 0)
              (dec.getD (i - 2) 0) σ).1
          · rfl
          · exact absurd (hsticky i _ _ σ h) (by simp [hok])
        obtain ⟨t, ht⟩ := ih (i + 1)
          (Mt.read i (dec.getD (i - 1) 0) (dec.getD (i - 2) 0) σ).1
          (dec ++ [(Mt.read i (dec.getD (i - 1) 0) (dec.getD (i - 2) 0)
            σ).2]) sσ si skip hok'
        refine ⟨(Mt.read i (dec.getD (i - 1) 0) (dec.getD (i - 2) 0) σ).2
          :: t, ?_⟩
        simp only [processGo]
        rw [if_pos hi, if_neg hcp, ht, List.append_assoc]
        rfl
    · refine ⟨[], ?_⟩
      simp only [processGo]
      rw [if_neg hi]
      simp [processExit, hok]

/-- Simulation of the truncated run against a successful full run: as long
as the truncated reader stays in bounds the two runs agree; if it goes out
of bounds, the loop returns `NotEnoughBytes` with the state of the last
save point, from which the full machine completes with the same output. -/
theorem processGo_sim {S : Type} (Mf Mt : AnsMachine S)
    (corrupt : ℕ → ℕ → Bool) (encSize interval : ℕ)
    (bytes : List ℕ) (skipf : ℕ)
    (hagree : ∀ i b1 b2 σ, Mt.ok (Mt.read i b1 b2 σ).1 = true →
      Mt.read i b1 b2 σ = Mf.read i b1 b2 σ)
    (hsticky : ∀ i b1 b2 σ, Mt.ok (Mt.read i b1 b2 σ).1 = true →
      Mt.ok σ = true)
    (hbits : ∀ σ, Mt.bits σ = Mf.bits σ)
    (hfinal : ∀ σ, Mt.finalOk σ = Mf.finalOk σ) :
    ∀ (fuel i : ℕ) (σ : S) (dec : List ℕ) (sσ : S) (si : ℕ),
      fuel + i = encSize → dec.length = i → si ≤ i →
      Mt.ok σ = true →
      process Mf corrupt encSize interval si sσ (dec.take si)
        = ProcOut.done bytes skipf →
      processGo Mf corrupt encSize interval fuel i σ dec sσ si (Mf.bits sσ)
        = ProcOut.done bytes skipf →
      (processGo Mt corrupt encSize interval fuel i σ dec sσ si (Mf.bits sσ)
          = ProcOut.done bytes skipf
       ∨ ∃ σs is dec1,
           processGo Mt corrupt encSize interval fuel i σ dec sσ si
               (Mf.bits sσ)
             = ProcOut.notEnough σs is (Mf.bits σs) dec1
           ∧ process Mf corrupt encSize interval is σs (dec1.take is)
             = ProcOut.done bytes skipf) := by
  intro fuel
  induction fuel with
  | zero =>
    intro i σ dec sσ si hfuel hlen hsi hok hres hF
    left
    simp only [processGo, processExit] at hF ⊢
    rw [if_pos hok]
    cases hFok : Mf.ok σ with
    | false => rw [if_neg (by simp [hFok])] at hF; exact absurd hF (by simp)
    | true =>
      rw [if_pos hFok] at hF
      cases hFfin : Mf.finalOk σ with
      | false => rw [if_neg (by simp [hFfin])] at hF; exact absurd hF (by simp)
      | true =>
        rw [if_pos hFfin] at hF
        rw [if_pos (by rw [hfinal σ]; exact hFfin), hbits σ]
        exact hF
  | succ fuel ih =>
    intro i σ dec sσ si hfuel hlen hsi hok hres hF
    have hi : i < encSize := by omega
    simp only [processGo] at hF ⊢
    rw [if_pos hi] at hF ⊢
    by_cases hcp : i % interval = 0 ∧ 0 < i
    · -- checkpoint iteration
      rw [if_pos hcp] at hF ⊢
      cases hFok : Mf.ok σ with
      | false =>
        rw [if_neg (by simp [hFok])] at hF
        exact absurd hF (by simp)
      | true =>
        rw [if_pos hFok] at hF
        by_cases hcc : i &&& 65535 = 0 ∧ corrupt i (Mf.bits σ) = true
        · rw [if_pos hcc] at hF
          exact absurd hF (by simp)
        · rw [if_neg hcc] at hF
          -- the run resumed from the fresh save point completes like the
          -- full run
          have hres' : process Mf corrupt encSize interval i σ dec
              = ProcOut.done bytes skipf := by
            rw [process, show encSize - i = fuel + 1 by omega]
            simp only [processGo]
            rw [if_pos hi, if_pos hcp, if_pos hFok, if_neg hcc]
            exact hF
          rw [if_pos hok]
          have hccT : ¬(i &&& 65535 = 0 ∧ corrupt i (Mt.bits σ) = true) := by
            rw [hbits σ]; exact hcc
          rw [if_neg hccT, hbits σ]
          cases hTok : Mt.ok (Mt.read i (dec.getD (i - 1) 0)
              (dec.getD (i - 2) 0) σ).1 with
          | true =>
            have hr := hagree i (dec.getD (i - 1) 0) (dec.getD (i - 2) 0)
              σ hTok
            rw [hr]
            rw [hr] at hTok
            refine ih (i + 1)
              (Mf.read i (dec.getD (i - 1) 0) (dec.getD (i - 2) 0) σ).1
              (dec ++ [(Mf.read i (dec.getD (i - 1) 0) (dec.getD (i - 2) 0)
                σ).2]) σ i (by omega) (by simp [hlen]) (by omega) hTok ?_ hF
            have hdt : dec.take i = dec := by
              rw [← hlen]; simp
            rw [take_append_le _ _ (by omega), hdt]
            exact hres'
          | false =>
            obtain ⟨t, ht⟩ := processGo_oob Mt corrupt encSize interval
              hsticky fuel (i + 1)
              (Mt.read i (dec.getD (i - 1) 0) (dec.getD (i - 2) 0) σ).1
              (dec ++ [(Mt.read i (dec.getD (i - 1) 0) (dec.getD (i - 2) 0)
                σ).2]) σ i (Mf.bits σ) hTok
            right
            refine ⟨σ, i, (dec ++ [(Mt.read i (dec.getD (i - 1) 0)
              (dec.getD (i - 2) 0) σ).2]) ++ t, ht, ?_⟩
            have hdt : dec.take i = dec := by
              rw [← hlen]; simp
            rw [take_append_le _ _ (by simp [hlen]),
              take_append_le _ _ (by omega), hdt]
            exact hres'
    · -- plain iteration
      rw [if_neg hcp] at hF ⊢
      cases hTok : Mt.ok (Mt.read i (dec.getD (i - 1) 0)
          (dec.getD (i - 2) 0) σ).1 with
      | true =>
        have hr := hagree i (dec.getD (i - 1) 0) (dec.getD (i - 2) 0) σ hTok
        rw [hr]
        rw [hr] at hTok
        refine ih (i + 1)
          (Mf.read i (dec.getD (i - 1) 0) (dec.getD (i - 2) 0) σ).1
          (dec ++ [(Mf.read i (dec.getD (i - 1) 0) (dec.getD (i - 2) 0)
            σ).2]) sσ si (by omega) (by simp [hlen]) (by omega) hTok ?_ hF
        rw [take_append_le _ _ (by omega)]
        exact hres
      | false =>
        obtain ⟨t, ht⟩ := processGo_oob Mt corrupt encSize interval hsticky
          fuel (i + 1)
          (Mt.read i (dec.getD (i - 1) 0) (dec.getD (i - 2) 0) σ).1
          (dec ++ [(Mt.read i (dec.getD (i - 1) 0) (dec.getD (i - 2) 0)
            σ).2]) sσ si (Mf.bits sσ) hTok
        right
        refine ⟨sσ, si, (dec ++ [(Mt.read i (dec.getD (i - 1) 0)
          (dec.getD (i - 2) 0) σ).2]) ++ t, ht, ?_⟩
        rw [take_append_le _ _ (by simp [hlen]; omega),
          take_append_le _ _ (by omega)]
        exact hres

/-- C4: when `ICCReader::Process` is interrupted because the bit reader
reports an out-of-bounds read, it restores the ANS checkpoint and symbol
index of the last save point, records the saved bit position in
`bits_to_skip_`, and returns NotEnoughBytes; re-running `Process` on the
completed input from exactly that restored state produces the same output
bytes as a single uninterrupted decode.  `Mf` is the decoding machine over
the full input, `Mt` the machine over the truncated input; a read of the
truncated input that stays within bounds returns the true data. -/
theorem process_interrupt_resume {S : Type} (Mf Mt : AnsMachine S)
    (corrupt : ℕ → ℕ → Bool) (encSize interval i0 : ℕ) (σ0 : S)
    (dec0 bytes : List ℕ) (skipf : ℕ)
    (hagree : ∀ i b1 b2 σ, Mt.ok (Mt.read i b1 b2 σ).1 = true →
      Mt.read i b1 b2 σ = Mf.read i b1 b2 σ)
    (hsticky : ∀ i b1 b2 σ, Mt.ok (Mt.read i b1 b2 σ).1 = true →
      Mt.ok σ = true)
    (hbits : ∀ σ, Mt.bits σ = Mf.bits σ)
    (hfinal : ∀ σ, Mt.finalOk σ = Mf.finalOk σ)
    (hi0 : i0 ≤ encSize) (hlen0 : dec0.length = i0)
    (hok0 : Mt.ok σ0 = true)
    (hrunF : process Mf corrupt encSize interval i0 σ0 dec0
      = ProcOut.done bytes skipf) :
    process Mt corrupt encSize interval i0 σ0 dec0
        = ProcOut.done bytes skipf
    ∨ ∃ σs is dec1,
        process Mt corrupt encSize interval i0 σ0 dec0
          = ProcOut.notEnough σs is (Mf.bits σs) dec1
        ∧ process Mf corrupt encSize interval is σs (dec1.take is)
          = ProcOut.done bytes skipf := by
  have hres : process Mf corrupt encSize interval i0 σ0 (dec0.take i0)
      = ProcOut.done bytes skipf := by
    have hdt : dec0.take i0 = dec0 := by rw [← hlen0]; simp
    rw [hdt]
    exact hrunF
  have hsim := processGo_sim Mf Mt corrupt encSize interval bytes skipf
    hagree hsticky hbits hfinal (encSize - i0) i0 σ0 dec0 σ0 i0
    (by omega) hlen0 (le_refl i0) hok0 hres hrunF
  rw [show Mf.bits σ0 = Mt.bits σ0 from (hbits σ0).symm] at hsim
  exact hsim

/-- A concrete full-input decoding machine: the state counts reads, each
read emits the previous count as the byte. -/
def wMachF : AnsMachine ℕ where
  read := fun _ _ _ σ => (σ + 1, σ % 256)
  ok := fun _ => true
  bits := fun σ => σ
  finalOk := fun _ => true

/-- The same machine over an input truncated after one more read: reads
beyond the bound return garbage and the bounds check fails from then on. -/
def wMachT : AnsMachine ℕ where
  read := fun _ _ _ σ => if σ + 1 ≤ 1 then (σ + 1, σ % 256) else (σ + 1, 99)
  ok := fun σ => decide (σ ≤ 1)
  bits := fun σ => σ
  finalOk := fun _ => true

/-- Witness for C4 with the concrete machines, `enc_size_ = 4`, checkpoint
interval 2, starting after `Init` wrote two bytes. -/
theorem process_interrupt_resume_witness :
    process wMachF (fun _ _ => false) 4 2 2 0 [7, 7]
        = ProcOut.done [7, 7, 0, 1] 2 ∧
    (process wMachT (fun _ _ => false) 4 2 2 0 [7, 7]
        = ProcOut.done [7, 7, 0, 1] 2
     ∨ ∃ σs is dec1,
         process wMachT (fun _ _ => false) 4 2 2 0 [7, 7]
           = ProcOut.notEnough σs is (wMachF.bits σs) dec1
         ∧ process wMachF (fun _ _ => false) 4 2 is σs (dec1.take is)
           = ProcOut.done [7, 7, 0, 1] 2) :=
  ⟨rfl, process_interrupt_resume wMachF wMachT (fun _ _ => false) 4 2 2 0
    [7, 7] [7, 7, 0, 1] 2
    (fun i b1 b2 σ h => by
      by_cases hc : σ + 1 ≤ 1
      · simp only [wMachT, wMachF, if_pos hc]
      · simp only [wMachT, if_neg hc] at h
        simp at h
        omega)
    (fun i b1 b2 σ h => by
      by_cases hc : σ + 1 ≤ 1
      · simp only [wMachT]
        simp
        omega
      · simp only [wMachT, if_neg hc] at h
        simp at h
        omega)
    (fun σ => rfl) (fun σ => rfl) (by norm_num) rfl rfl rfl⟩

/-! ### The expansion-bound check of ICCReader::Process (lines 389-393)

The check reads `float used_bytes = (TotalBitsConsumed() - used_bits_base_)
/ 8.0f; if (i_ > used_bytes * 256) ...`.  Its `float` detour is modelled
exactly: a binary32 value in the magnitudes involved is an integer times a
power of two, and every float here is exactly representable as a natural
number — the conversion of the bit count rounds to 24 significant bits
(`rnFloat`), the division by `8.0f` and multiplication by `256` are exact
exponent shifts, and `i_` (a positive multiple of 65536 below
`enc_size_ ≤ 2^28`, by the guard at line 389 and the Init-time size check)
has at most 12 significant bits, so it converts exactly.  The comparison
of two exactly-represented values is the comparison of those values. -/

/-- The binary32 value of a natural number: round to nearest, ties to
even, at 24 significant bits (exact below `2^24`).  The result is itself a
natural number, which is how the float is represented here. -/
def rnFloat (n : ℕ) : ℕ :=
  if n < 2 ^ 24 then n
  else
    (if 2 * (n % 2 ^ (n.log2 - 23)) < 2 ^ (n.log2 - 23) then
      n / 2 ^ (n.log2 - 23)
     else if 2 ^ (n.log2 - 23) < 2 * (n % 2 ^ (n.log2 - 23)) then
      n / 2 ^ (n.log2 - 23) + 1
     else if n / 2 ^ (n.log2 - 23) % 2 = 0 then n / 2 ^ (n.log2 - 23)
     else n / 2 ^ (n.log2 - 23) + 1) * 2 ^ (n.log2 - 23)

/-- Lines 389-393 of icc_codec.cc: `used_bytes = bitsDelta / 8.0f` and the
test `i_ > used_bytes * 256`, with the float semantics made explicit:
`used_bytes * 256` is `rnFloat bitsDelta * 32` (dividing a binary32 value
by 8 and multiplying by 256 are exact exponent shifts), and `i_` converts
to `rnFloat i` for the comparison. -/
def floatExpansionCheck (i bitsDelta : ℕ) : Bool :=
  decide (32 * rnFloat bitsDelta < rnFloat i)

theorem rnFloat_ge {n : ℕ} (h : 2 ^ 24 ≤ n) : 2 ^ 24 ≤ rnFloat n := by
  rw [rnFloat, if_neg (by omega)]
  have hn0 : n ≠ 0 := by
    intro hn
    rw [hn] at h
    simp at h
  have hlog : 24 ≤ n.log2 := (Nat.le_log2 hn0).mpr h
  have hself : 2 ^ n.log2 ≤ n := Nat.log2_self_le hn0
  have hq : 2 ^ 23 ≤ n / 2 ^ (n.log2 - 23) := by
    rw [Nat.le_div_iff_mul_le (Nat.two_pow_pos _)]
    calc 2 ^ 23 * 2 ^ (n.log2 - 23) = 2 ^ n.log2 := by
          rw [← pow_add, show 23 + (n.log2 - 23) = n.log2 by omega]
      _ ≤ n := hself
  have hstep : ∀ q, 2 ^ 23 ≤ q → 2 ^ 24 ≤ q * 2 ^ (n.log2 - 23) := by
    intro q hq23
    calc (2 : ℕ) ^ 24 = 2 ^ 23 * 2 ^ 1 := by norm_num
      _ ≤ q * 2 ^ (n.log2 - 23) :=
          Nat.mul_le_mul hq23 (Nat.pow_le_pow_right (by norm_num) (by omega))
  split_ifs with h1 h2 h3
  · exact hstep _ hq
  · exact hstep _ (by omega)
  · exact hstep _ hq
  · exact hstep _ (by omega)

/-- A positive multiple of 65536 below `2^28` has at most 12 significant
bits, so its binary32 conversion is exact. -/
theorem rnFloat_exact {i : ℕ} (h16 : i % 65536 = 0) (h28 : i < 2 ^ 28) :
    rnFloat i = i := by
  by_cases hlt : i < 2 ^ 24
  · rw [rnFloat, if_pos hlt]
  · have hn0 : i ≠ 0 := by
      intro hn
      rw [hn] at hlt
      exact hlt (by norm_num)
    have hlog : i.log2 < 28 := (Nat.log2_lt hn0).mpr h28
    have hdvd16 : 2 ^ 16 ∣ i := by
      refine Nat.dvd_of_mod_eq_zero ?_
      norm_num
      exact h16
    have hdvd : 2 ^ (i.log2 - 23) ∣ i :=
      dvd_trans (pow_dvd_pow 2 (by omega)) hdvd16
    have hr : i % 2 ^ (i.log2 - 23) = 0 := Nat.mod_eq_zero_of_dvd hdvd
    rw [rnFloat, if_neg hlt, hr]
    rw [if_pos (by simp)]
    exact Nat.div_mul_cancel hdvd

/-- In every reachable state of the check (`i` a positive multiple of
65536 below the `2^28` size cap), the float comparison is extensionally
the exact integer comparison `32 * bitsDelta < i`, i.e. decompressed
bytes > 256 × consumed bytes. -/
theorem floatExpansionCheck_exact {i : ℕ} (b : ℕ)
    (hmask : i &&& 65535 = 0) (h28 : i < 2 ^ 28) :
    floatExpansionCheck i b = decide (32 * b < i) := by
  have h16 : i % 65536 = 0 := by
    have hand := Nat.and_pow_two_sub_one_eq_mod i 16
    norm_num at hand
    omega
  have hi : rnFloat i = i := rnFloat_exact h16 h28
  rw [floatExpansionCheck, hi]
  by_cases hb : b < 2 ^ 24
  · rw [rnFloat, if_pos hb]
  · have h1 : 2 ^ 24 ≤ rnFloat b := rnFloat_ge (by omega)
    have e24 : (2 : ℕ) ^ 24 = 16777216 := by norm_num
    have e28 : (2 : ℕ) ^ 28 = 268435456 := by norm_num
    rw [e24] at h1 hb
    rw [e28] at h28
    rw [decide_eq_false (by omega), decide_eq_false (by omega)]

/-- C9: at every 65536-aligned checkpoint of the `Process` loop (with
`enc_size_ ≤ 2^28` as enforced at Init), the float expansion check
rejects with "Corrupted stream" exactly when the decompressed index
exceeds 256 times the consumed bytes — `32 * bitsDelta < i_` — and
otherwise the loop continues: a stream whose ratio stays at or below
256x at the checkpoints is never rejected by this check. -/
theorem process_expansion_bound {S : Type} (M : AnsMachine S)
    (encSize interval fuel i : ℕ) (σ : S) (dec : List ℕ) (sσ : S)
    (si skip : ℕ) (hi : i < encSize) (hcp : i % interval = 0) (hpos : 0 < i)
    (hmask : i &&& 65535 = 0) (hEnc : encSize ≤ 2 ^ 28)
    (hok : M.ok σ = true) :
    processGo M floatExpansionCheck encSize interval (fuel + 1) i σ dec sσ
        si skip
      = if 32 * M.bits σ < i then ProcOut.corrupted "Corrupted stream"
        else
          processGo M floatExpansionCheck encSize interval fuel (i + 1)
            (M.read i (dec.getD (i - 1) 0) (dec.getD (i - 2) 0) σ).1
            (dec ++ [(M.read i (dec.getD (i - 1) 0) (dec.getD (i - 2) 0)
              σ).2])
            σ i (M.bits σ) := by
  have hex : floatExpansionCheck i (M.bits σ) = decide (32 * M.bits σ < i) :=
    floatExpansionCheck_exact (M.bits σ) hmask (by omega)
  simp only [processGo]
  rw [if_pos hi, if_pos ⟨hcp, hpos⟩, if_pos hok]
  by_cases hc : 32 * M.bits σ < i
  · rw [if_pos hc, if_pos ⟨hmask, by rw [hex]; simpa using hc⟩]
  · rw [if_neg hc, if_neg ?_]
    intro hcontra
    rw [hex] at hcontra
    exact hc (by simpa using hcontra.2)

/-- A concrete machine for the C9 witness: the state is the consumed bit
count, each read consumes one bit and emits a zero byte. -/
def wMachE : AnsMachine ℕ where
  read := fun _ _ _ σ => (σ + 1, 0)
  ok := fun _ => true
  bits := fun σ => σ
  finalOk := fun _ => true

/-- Witness for C9: at the checkpoint `i_ = 65536` with only 100 bits
consumed, `65536 > 256 * (100 / 8)`, and the loop rejects with
"Corrupted stream". -/
theorem process_expansion_bound_witness :
    processGo wMachE floatExpansionCheck 65600 65536 1 65536 100 [] 0 0 0
      = ProcOut.corrupted "Corrupted stream" := by
  rw [process_expansion_bound wMachE 65600 65536 0 65536 100 [] 0 0 0
    (by norm_num) (by norm_num) (by norm_num) (by decide) (by norm_num)
    rfl]
  rw [if_pos (by decide)]

/-! ### The ANS entropy coder (spec §3, §4.2, §4.3, §4.5, §6)

The entropy-coding sources (`enc_ans`, `dec_ans`, histogram and context-map
serialization) are not part of this snapshot — only `ans_test.cc` pins the
API shape — so this whole layer is modelled from the spec.  Choices the
spec leaves open, resolved here: the context merge always produces `K = 1`
(§4.2 allows any merge); the histogram is serialized in the General form
with fixed-width 13-bit counts (§4.2 names a Rice-like code without
specifying it); the spread permutation is sequential (design note (c)
leaves it to the implementation); and the renormalization threshold is
`freq <<< 20`, the unique reading of §4.3 consistent with the normative
state invariant `s ∈ [2^16, 2^32)` (the literal per-symbol `shift` text
would overflow the 32-bit state for mid-sized frequencies). -/

/-- Modelled from the spec: LSB-first bit writing (§4.1): `write(n, v)`
appends the `n` low bits of `v`, least significant first. -/
def writeVal : ℕ → ℕ → List Bool
  | 0, _ => []
  | n + 1, v => decide (v % 2 = 1) :: writeVal n (v / 2)

/-- Modelled from the spec: `read(n)` consumes `n` bits LSB-first; reading
past EOF returns zeros (§4.1). -/
def readVal : ℕ → List Bool → ℕ × List Bool
  | 0, s => (0, s)
  | _ + 1, [] => (0, [])
  | n + 1, b :: rest =>
    ((if b then 1 else 0) + 2 * (readVal n rest).1, (readVal n rest).2)

theorem readVal_writeVal {n v : ℕ} (hv : v < 2 ^ n) (rest : List Bool) :
    readVal n (writeVal n v ++ rest) = (v, rest) := by
  induction n generalizing v with
  | zero =>
    have hv0 : v = 0 := by simpa using hv
    subst hv0
    rfl
  | succ n ih =>
    have h2 : v / 2 < 2 ^ n := by
      rw [Nat.div_lt_iff_lt_mul (by norm_num)]
      calc v < 2 ^ (n + 1) := hv
        _ = 2 ^ n * 2 := by ring
    simp only [writeVal, List.cons_append, readVal, List.append_eq]
    rw [ih h2]
    by_cases h : v % 2 = 1
    · simp [h]
      omega
    · simp [h]
      omega

/-- Modelled from the spec: a Token (§3): `{context, symbol, nbits, bits}`
with `symbol < ANS_MAX_ALPHA_SIZE`, `nbits ≤ 16`, `bits < 2^nbits`. -/
structure Token where
  context : ℕ
  symbol : ℕ
  nbits : ℕ
  bits : ℕ
deriving DecidableEq

/-- Modelled from the spec: histogram build (§4.2) for the single merged
context: occurrence counts of each symbol in `[0, A)`. -/
def buildCounts (A : ℕ) (T : List Token) : List ℕ :=
  (List.range A).map (fun s => (T.filter (fun t => decide (t.symbol = s))).length)

/-- The normalization walk: the first non-zero count becomes `big`, every
other non-zero count becomes 1, zero counts stay zero. -/
def normGo (big : ℕ) : List ℕ → Bool → List ℕ
  | [], _ => []
  | c :: rest, seen =>
    if c = 0 then 0 :: normGo big rest seen
    else if seen then 1 :: normGo big rest true
    else big :: normGo big rest true

/-- Modelled from the spec: normalization (§4.2): scale to sum exactly
`ANS_TAB_SIZE = 4096` while preserving zero/non-zero status; realized by
giving the first of the `k` non-zero symbols count `4096 - (k - 1)` and
every other non-zero symbol count 1. -/
def normalize (counts : List ℕ) : List ℕ :=
  normGo (4096 - (counts.countP (fun c => decide (0 < c)) - 1)) counts false

def ansHist (A : ℕ) (T : List Token) : List ℕ := normalize (buildCounts A T)

/-- Modelled from the spec: `start[s]` = cumulative sum of the earlier
frequencies (§4.3, encoder table). -/
def ansStart (freqs : List ℕ) (s : ℕ) : ℕ := (freqs.take s).sum

theorem normGo_length (big : ℕ) :
    ∀ (counts : List ℕ) (seen : Bool),
      (normGo big counts seen).length = counts.length := by
  intro counts
  induction counts with
  | nil => intro seen; rfl
  | cons c rest ih =>
    intro seen
    by_cases hc : c = 0
    · simp [normGo, hc, ih]
    · by_cases hs : seen = true <;> simp [normGo, hc, hs, ih]

theorem normGo_pos {big : ℕ} (hbig : 1 ≤ big) :
    ∀ (counts : List ℕ) (seen : Bool) (s : ℕ),
      0 < counts.getD s 0 → 1 ≤ (normGo big counts seen).getD s 0 := by
  intro counts
  induction counts with
  | nil => intro seen s h; simp at h
  | cons c rest ih =>
    intro seen s h
    cases s with
    | zero =>
      simp only [List.getD_cons_zero] at h
      have hc : ¬(c = 0) := by omega
      by_cases hs : seen = true
      · simp [normGo, hc, hs]
      · simp only [Bool.not_eq_true] at hs
        simp [normGo, hc, hs]
        omega
    | succ s =>
      simp only [List.getD_cons_succ] at h
      by_cases hc : c = 0
      · simpa [normGo, hc] using ih seen s h
      · by_cases hs : seen = true <;>
          simpa [normGo, hc, hs] using ih true s h

theorem normGo_le {big : ℕ} (hbig : big ≤ 4096) :
    ∀ (counts : List ℕ) (seen : Bool) (x : ℕ),
      x ∈ normGo big counts seen → x ≤ 4096 := by
  intro counts
  induction counts with
  | nil => intro seen x h; simp [normGo] at h
  | cons c rest ih =>
    intro seen x h
    by_cases hc : c = 0
    · rw [normGo, if_pos hc] at h
      rcases List.mem_cons.mp h with rfl | h
      · omega
      · exact ih seen x h
    · by_cases hs : seen = true
      · rw [normGo, if_neg hc, hs, if_pos rfl] at h
        rcases List.mem_cons.mp h with rfl | h
        · omega
        · exact ih true x h
      · simp only [Bool.not_eq_true] at hs
        rw [normGo, if_neg hc, hs] at h
        simp only [Bool.false_eq_true, if_false] at h
        rcases List.mem_cons.mp h with rfl | h
        · exact hbig
        · exact ih true x h

theorem normGo_sum_true (big : ℕ) :
    ∀ counts : List ℕ,
      (normGo big counts true).sum
        = counts.countP (fun c => decide (0 < c)) := by
  intro counts
  induction counts with
  | nil => rfl
  | cons c rest ih =>
    by_cases hc : c = 0
    · simp [normGo, hc, ih, List.countP_cons]
    · simp [normGo, hc, ih, List.countP_cons, Nat.pos_of_ne_zero hc]
      omega

theorem normGo_sum_false (big : ℕ) :
    ∀ counts : List ℕ,
      (normGo big counts false).sum
        = if counts.countP (fun c => decide (0 < c)) = 0 then 0
          else big + (counts.countP (fun c => decide (0 < c)) - 1) := by
  intro counts
  induction counts with
  | nil => rfl
  | cons c rest ih =>
    by_cases hc : c = 0
    · simp [normGo, hc, ih, List.countP_cons]
    · have hpos : 0 < c := Nat.pos_of_ne_zero hc
      simp [normGo, hc, ih, List.countP_cons, hpos, normGo_sum_true]

theorem normalize_length (counts : List ℕ) :
    (normalize counts).length = counts.length := normGo_length _ counts false

theorem normalize_sum {counts : List ℕ}
    (hk : 0 < counts.countP (fun c => decide (0 < c)))
    (hk4 : counts.countP (fun c => decide (0 < c)) ≤ 4096) :
    (normalize counts).sum = 4096 := by
  rw [normalize, normGo_sum_false, if_neg (by omega)]
  omega

theorem sum_range_getD {l : List ℕ} : ∀ {s : ℕ}, s ≤ l.length →
    ∑ j ∈ Finset.range s, l.getD j 0 = (l.take s).sum := by
  intro s
  induction s with
  | zero => intro _; simp
  | succ s ih =>
    intro hs
    rw [Finset.sum_range_succ, ih (by omega),
      List.sum_take_succ l s (by omega),
      List.getD_eq_getElem l 0 (by omega)]

theorem getD_add_take_sum_le {l : List ℕ} {s : ℕ} (hs : s < l.length) :
    (l.take s).sum + l.getD s 0 ≤ l.sum := by
  have h1 : (l.take (s + 1)).sum = (l.take s).sum + l.get ⟨s, hs⟩ :=
    List.sum_take_succ l s hs
  have h2 : l.getD s 0 = l.get ⟨s, hs⟩ := by
    rw [List.getD_eq_getElem l 0 hs]
    rfl
  have h3 : (l.take (s + 1)).sum ≤ l.sum := by
    conv_rhs => rw [← List.take_append_drop (s + 1) l]
    rw [List.sum_append]
    omega
  omega

/-- The sequential-spread walk: starting at symbol `s₀` with remaining
offset `r`, subtract frequencies until the slot's symbol is reached. -/
def slotFindGo (freq : ℕ → ℕ) : ℕ → ℕ → ℕ → ℕ × ℕ
  | 0, s, r => (s, r)
  | fuel + 1, s, r =>
    if r < freq s then (s, r) else slotFindGo freq fuel (s + 1) (r - freq s)

theorem slotFindGo_spec (freq : ℕ → ℕ) :
    ∀ (d s₀ r : ℕ),
      (∑ j ∈ Finset.range d, freq (s₀ + j)) ≤ r →
      r < (∑ j ∈ Finset.range d, freq (s₀ + j)) + freq (s₀ + d) →
      ∀ fuel, d < fuel →
      slotFindGo freq fuel s₀ r
        = (s₀ + d, r - ∑ j ∈ Finset.range d, freq (s₀ + j)) := by
  intro d
  induction d with
  | zero =>
    intro s₀ r h1 h2 fuel hf
    cases fuel with
    | zero => omega
    | succ fuel =>
      simp only [Finset.range_zero, Finset.sum_empty, Nat.add_zero,
        Nat.zero_add, Nat.sub_zero] at h1 h2 ⊢
      rw [slotFindGo, if_pos (by omega)]
  | succ d ih =>
    intro s₀ r h1 h2 fuel hf
    have hre : ∑ j ∈ Finset.range (d + 1), freq (s₀ + j)
        = (∑ j ∈ Finset.range d, freq (s₀ + 1 + j)) + freq s₀ := by
      rw [Finset.sum_range_succ']
      congr 1
      exact Finset.sum_congr rfl fun j _ => by
        rw [show s₀ + (j + 1) = s₀ + 1 + j by omega]
    rw [hre] at h1 h2
    have harg : s₀ + (d + 1) = s₀ + 1 + d := by omega
    rw [harg] at h2
    cases fuel with
    | zero => omega
    | succ fuel =>
      rw [slotFindGo, if_neg (by omega)]
      rw [ih (s₀ + 1) (r - freq s₀) (by omega) (by omega) fuel (by omega)]
      rw [hre]
      simp only [Prod.mk.injEq]
      omega

/-- Modelled from the spec: the decoder-table lookup (§4.3) under the
sequential spread (the spec leaves the spread permutation open, design
note (c)): slot `i` belongs to the symbol `s` with
`start[s] ≤ i < start[s] + freq[s]`, with offset `i - start[s]`. -/
def slotFind (freqs : List ℕ) (slot : ℕ) : ℕ × ℕ :=
  slotFindGo (fun u => freqs.getD u 0) freqs.length 0 slot

theorem slotFind_at {freqs : List ℕ} {s off : ℕ} (hs : s < freqs.length)
    (hoff : off < freqs.getD s 0) :
    slotFind freqs (ansStart freqs s + off) = (s, off) := by
  have hsr : ∑ j ∈ Finset.range s, freqs.getD (0 + j) 0
      = ansStart freqs s := by
    simp only [Nat.zero_add]
    exact sum_range_getD (le_of_lt hs)
  have h := slotFindGo_spec (fun u => freqs.getD u 0) s 0
    (ansStart freqs s + off)
    (by
      show ∑ j ∈ Finset.range s, freqs.getD (0 + j) 0
        ≤ ansStart freqs s + off
      rw [hsr]
      omega)
    (by
      show ansStart freqs s + off
        < (∑ j ∈ Finset.range s, freqs.getD (0 + j) 0)
          + freqs.getD (0 + s) 0
      rw [hsr, Nat.zero_add]
      omega)
    freqs.length hs
  rw [slotFind, h]
  have hsum2 : ∑ j ∈ Finset.range s, freqs.getD j 0 = ansStart freqs s := by
    rw [← hsr]
    simp only [Nat.zero_add]
  simp only [Nat.zero_add]
  rw [hsum2]
  simp only [Prod.mk.injEq]
  exact ⟨trivial, by omega⟩

theorem or_eq_add_of_lt {q m n : ℕ} (hm : m < 2 ^ n) :
    2 ^ n * q ||| m = 2 ^ n * q + m := (Nat.mul_add_lt_is_or hm q).symm

/-- Modelled from the spec: one rANS encode step (§4.3): renormalize —
emit the low 16 bits of the state and shift it right by 16 when it is at
or above `freq <<< 20` (the threshold consistent with the normative state
invariant `s ∈ [2^16, 2^32)`; at most one emission per symbol) — then
`s = ((s / freq) << 12) | (start + s mod freq)`. -/
def ansEncStep (f c st : ℕ) : ℕ × Option ℕ :=
  if f <<< 20 ≤ st then
    (((st >>> 16) / f) <<< 12 ||| (c + (st >>> 16) % f), some (st % 65536))
  else
    ((st / f) <<< 12 ||| (c + st % f), none)

/-- Modelled from the spec: one rANS decode step (§4.3): `slot = s mod
4096` (the low 12 bits) gives `{symbol, offset, freq}` through the spread;
`s = freq * (s >> 12) + offset`; pull 16 bits when the state drops below
`2^16`. -/
def ansDecStep (freqs : List ℕ) (st : ℕ) (stream : List Bool) :
    ℕ × ℕ × List Bool :=
  let so := slotFind freqs (st % 4096)
  let st1 := freqs.getD so.1 0 * (st / 4096) + so.2
  if st1 < 65536 then
    (so.1, (st1 <<< 16) ||| (readVal 16 stream).1, (readVal 16 stream).2)
  else (so.1, st1, stream)

theorem ansEncStep_range {f c st : ℕ} (hf : 1 ≤ f) (hcf : c + f ≤ 4096)
    (hlo : 2 ^ 16 ≤ st) (hhi : st < 2 ^ 32) :
    2 ^ 16 ≤ (ansEncStep f c st).1 ∧ (ansEncStep f c st).1 < 2 ^ 32 := by
  have e16 : (2 : ℕ) ^ 16 = 65536 := by norm_num
  have e32 : (2 : ℕ) ^ 32 = 4294967296 := by norm_num
  have e12 : (2 : ℕ) ^ 12 = 4096 := by norm_num
  have e20 : (2 : ℕ) ^ 20 = 1048576 := by norm_num
  rw [ansEncStep]
  by_cases hren : f <<< 20 ≤ st
  · rw [if_pos hren]
    rw [Nat.shiftLeft_eq, e20] at hren
    simp only [Nat.shiftRight_eq_div_pow, Nat.shiftLeft_eq, e16, e12]
    have hmod : st / 65536 % f < f := Nat.mod_lt _ (by omega)
    have hm : c + st / 65536 % f < 2 ^ 12 := by omega
    rw [show st / 65536 / f * 4096 = 2 ^ 12 * (st / 65536 / f) by
      rw [e12]; ring, or_eq_add_of_lt hm]
    have h1 : f * 16 ≤ st / 65536 := by
      have h : f * 1048576 / 65536 ≤ st / 65536 :=
        Nat.div_le_div_right hren
      rwa [show f * 1048576 = f * 16 * 65536 by ring,
        Nat.mul_div_cancel _ (by norm_num)] at h
    have h2 : st / 65536 < 65536 := by
      rw [Nat.div_lt_iff_lt_mul (by norm_num)]
      omega
    have hq1 : 16 ≤ st / 65536 / f := by
      have h : f * 16 / f ≤ st / 65536 / f := Nat.div_le_div_right h1
      rwa [show f * 16 = 16 * f by ring,
        Nat.mul_div_cancel _ (by omega)] at h
    have hq2 : st / 65536 / f < 65536 :=
      lt_of_le_of_lt (Nat.div_le_self _ f) h2
    rw [e12] at hm ⊢
    constructor
    · omega
    · omega
  · rw [if_neg hren]
    rw [Nat.shiftLeft_eq, e20] at hren
    simp only [Nat.shiftLeft_eq, e12]
    have hmod : st % f < f := Nat.mod_lt _ (by omega)
    have hm : c + st % f < 2 ^ 12 := by omega
    rw [show st / f * 4096 = 2 ^ 12 * (st / f) by rw [e12]; ring,
      or_eq_add_of_lt hm]
    have hq1 : 16 ≤ st / f := by
      have h16 : 16 * f ≤ st := by omega
      rw [Nat.le_div_iff_mul_le (by omega)]
      omega
    have hq2 : st / f < 1048576 := by
      rw [Nat.div_lt_iff_lt_mul (by omega)]
      have : f * 1048576 = 1048576 * f := by ring
      omega
    rw [e12] at hm ⊢
    constructor
    · omega
    · omega

/-- Modelled from the spec: the bits of an emitted renormalization word
(none when the step did not renormalize). -/
def emit16 : Option ℕ → List Bool
  | some w => writeVal 16 w
  | none => []

/-- The decode step inverts the encode step: from the post-step state and
the (possibly emitted) renormalization word it recovers the symbol and the
pre-step state. -/
theorem ansDecStep_ansEncStep {freqs : List ℕ} {s st : ℕ}
    (hs : s < freqs.length) (hf : 1 ≤ freqs.getD s 0)
    (hsum : ansStart freqs s + freqs.getD s 0 ≤ 4096)
    (hlo : 2 ^ 16 ≤ st) (hhi : st < 2 ^ 32) (stream : List Bool) :
    ansDecStep freqs (ansEncStep (freqs.getD s 0) (ansStart freqs s) st).1
        (emit16 (ansEncStep (freqs.getD s 0) (ansStart freqs s) st).2
          ++ stream)
      = (s, st, stream) := by
  have e16 : (2 : ℕ) ^ 16 = 65536 := by norm_num
  have e32 : (2 : ℕ) ^ 32 = 4294967296 := by norm_num
  have e12 : (2 : ℕ) ^ 12 = 4096 := by norm_num
  have e20 : (2 : ℕ) ^ 20 = 1048576 := by norm_num
  rw [e16] at hlo
  rw [e32] at hhi
  by_cases hren : freqs.getD s 0 <<< 20 ≤ st
  · -- renormalizing step: a 16-bit word was emitted
    have hrenA : freqs.getD s 0 * 1048576 ≤ st := by
      rw [Nat.shiftLeft_eq, e20] at hren
      exact hren
    have hmod : st / 65536 % freqs.getD s 0 < freqs.getD s 0 :=
      Nat.mod_lt _ (by omega)
    have hm : ansStart freqs s + st / 65536 % freqs.getD s 0 < 4096 := by
      omega
    have henc : ansEncStep (freqs.getD s 0) (ansStart freqs s) st
        = (4096 * (st / 65536 / freqs.getD s 0)
            + (ansStart freqs s + st / 65536 % freqs.getD s 0),
           some (st % 65536)) := by
      rw [ansEncStep, if_pos hren, Nat.shiftRight_eq_div_pow, e16,
        Nat.shiftLeft_eq, e12]
      rw [show st / 65536 / freqs.getD s 0 * 4096
          = 2 ^ 12 * (st / 65536 / freqs.getD s 0) by rw [e12]; ring]
      rw [or_eq_add_of_lt (by rw [e12]; omega), e12]
    rw [henc]
    show ansDecStep freqs
        (4096 * (st / 65536 / freqs.getD s 0)
          + (ansStart freqs s + st / 65536 % freqs.getD s 0))
        (writeVal 16 (st % 65536) ++ stream) = (s, st, stream)
    have hslot : (4096 * (st / 65536 / freqs.getD s 0)
        + (ansStart freqs s + st / 65536 % freqs.getD s 0)) % 4096
        = ansStart freqs s + st / 65536 % freqs.getD s 0 := by
      omega
    have hdivq : (4096 * (st / 65536 / freqs.getD s 0)
        + (ansStart freqs s + st / 65536 % freqs.getD s 0)) / 4096
        = st / 65536 / freqs.getD s 0 := by
      omega
    simp only [ansDecStep, hslot, hdivq, slotFind_at hs hmod]
    have hst1 : freqs.getD s 0 * (st / 65536 / freqs.getD s 0)
        + st / 65536 % freqs.getD s 0 = st / 65536 :=
      Nat.div_add_mod _ _
    rw [hst1]
    have hlt : st / 65536 < 65536 := by
      rw [Nat.div_lt_iff_lt_mul (by norm_num)]
      omega
    rw [if_pos hlt, readVal_writeVal (by rw [e16]; omega) stream]
    have hre2 : (st / 65536) <<< 16 ||| st % 65536 = st := by
      rw [Nat.shiftLeft_eq, show st / 65536 * 2 ^ 16 = 2 ^ 16 * (st / 65536)
        by ring, or_eq_add_of_lt (by rw [e16]; omega), e16]
      omega
    simp only [hre2]
  · -- no renormalization
    have hrenA : st < freqs.getD s 0 * 1048576 := by
      rw [Nat.shiftLeft_eq, e20] at hren
      omega
    have hmod : st % freqs.getD s 0 < freqs.getD s 0 :=
      Nat.mod_lt _ (by omega)
    have hm : ansStart freqs s + st % freqs.getD s 0 < 4096 := by omega
    have henc : ansEncStep (freqs.getD s 0) (ansStart freqs s) st
        = (4096 * (st / freqs.getD s 0)
            + (ansStart freqs s + st % freqs.getD s 0), none) := by
      rw [ansEncStep, if_neg hren, Nat.shiftLeft_eq, e12]
      rw [show st / freqs.getD s 0 * 4096
          = 2 ^ 12 * (st / freqs.getD s 0) by rw [e12]; ring]
      rw [or_eq_add_of_lt (by rw [e12]; omega), e12]
    rw [henc]
    show ansDecStep freqs
        (4096 * (st / freqs.getD s 0)
          + (ansStart freqs s + st % freqs.getD s 0))
        ([] ++ stream) = (s, st, stream)
    rw [List.nil_append]
    have hslot : (4096 * (st / freqs.getD s 0)
        + (ansStart freqs s + st % freqs.getD s 0)) % 4096
        = ansStart freqs s + st % freqs.getD s 0 := by
      omega
    have hdivq : (4096 * (st / freqs.getD s 0)
        + (ansStart freqs s + st % freqs.getD s 0)) / 4096
        = st / freqs.getD s 0 := by
      omega
    simp only [ansDecStep, hslot, hdivq, slotFind_at hs hmod]
    have hst1 : freqs.getD s 0 * (st / freqs.getD s 0)
        + st % freqs.getD s 0 = st := Nat.div_add_mod _ _
    rw [hst1, if_neg (by omega)]

/-- Modelled from the spec: the encoder body pass (§4.5, normative wire
order): tokens are processed in reverse, so the recursion first encodes the
suffix; for the head token the raw `nbits` bits and then one ANS step are
placed on the (LIFO) stream, which lays out, in decoder order, the emitted
word, the raw bits, and the rest of the body. -/
def encodeBody (freqs : List ℕ) : List Token → ℕ → ℕ × List Bool
  | [], st => (st, [])
  | t :: rest, st =>
    let r := encodeBody freqs rest st
    let e := ansEncStep (freqs.getD t.symbol 0) (ansStart freqs t.symbol) r.1
    (e.1, emit16 e.2 ++ writeVal t.nbits t.bits ++ r.2)

/-- Modelled from the spec: the decoder body pass (§4.5): for each token in
forward order decode one symbol, then read that token's raw bits (whose
width the caller supplies, as in the round-trip test harness). -/
def decodeBody (freqs : List ℕ) : List ℕ → ℕ → List Bool →
    List (ℕ × ℕ) × ℕ × List Bool
  | [], st, stream => ([], st, stream)
  | nb :: rest, st, stream =>
    let d := ansDecStep freqs st stream
    let raw := readVal nb d.2.2
    let r := decodeBody freqs rest d.2.1 raw.2
    ((d.1, raw.1) :: r.1, r.2)

theorem encodeBody_range {freqs : List ℕ} :
    ∀ (T : List Token) (st : ℕ),
      (∀ t ∈ T, t.symbol < freqs.length ∧ 1 ≤ freqs.getD t.symbol 0 ∧
        ansStart freqs t.symbol + freqs.getD t.symbol 0 ≤ 4096) →
      2 ^ 16 ≤ st → st < 2 ^ 32 →
      2 ^ 16 ≤ (encodeBody freqs T st).1
        ∧ (encodeBody freqs T st).1 < 2 ^ 32 := by
  intro T
  induction T with
  | nil => intro st _ h1 h2; exact ⟨h1, h2⟩
  | cons t rest ih =>
    intro st hT h1 h2
    obtain ⟨hsym, hf, hsum⟩ := hT t (by simp)
    have hr := ih st (fun u hu => hT u (by simp [hu])) h1 h2
    simp only [encodeBody]
    exact ansEncStep_range hf hsum hr.1 hr.2

/-- Decoding the encoded body with the per-token raw widths recovers the
(symbol, raw-bits) pairs, the initial encoder state, and the rest of the
stream. -/
theorem decodeBody_encodeBody {freqs : List ℕ} :
    ∀ (T : List Token) (st : ℕ) (rest : List Bool),
      (∀ t ∈ T, t.symbol < freqs.length ∧ 1 ≤ freqs.getD t.symbol 0 ∧
        ansStart freqs t.symbol + freqs.getD t.symbol 0 ≤ 4096 ∧
        t.bits < 2 ^ t.nbits) →
      2 ^ 16 ≤ st → st < 2 ^ 32 →
      decodeBody freqs (T.map (fun t => t.nbits)) (encodeBody freqs T st).1
          ((encodeBody freqs T st).2 ++ rest)
        = (T.map (fun t => (t.symbol, t.bits)), st, rest) := by
  intro T
  induction T with
  | nil => intro st rest _ _ _; rfl
  | cons t T2 ih =>
    intro st rest hT h1 h2
    obtain ⟨hsym, hf, hsum, hbits⟩ := hT t (by simp)
    have hr := encodeBody_range T2 st
      (fun u hu => ⟨(hT u (by simp [hu])).1, (hT u (by simp [hu])).2.1,
        (hT u (by simp [hu])).2.2.1⟩) h1 h2
    have hdec1 : ansDecStep freqs
        (ansEncStep (freqs.getD t.symbol 0) (ansStart freqs t.symbol)
          (encodeBody freqs T2 st).1).1
        ((emit16 (ansEncStep (freqs.getD t.symbol 0)
            (ansStart freqs t.symbol) (encodeBody freqs T2 st).1).2
          ++ writeVal t.nbits t.bits ++ (encodeBody freqs T2 st).2) ++ rest)
        = (t.symbol, (encodeBody freqs T2 st).1,
            writeVal t.nbits t.bits
              ++ ((encodeBody freqs T2 st).2 ++ rest)) := by
      rw [List.append_assoc, List.append_assoc]
      exact ansDecStep_ansEncStep hsym hf hsum hr.1 hr.2 _
    simp only [encodeBody, List.map_cons, decodeBody, hdec1,
      readVal_writeVal hbits,
      ih st rest (fun u hu => hT u (by simp [hu])) h1 h2]

/-- Modelled from the spec: the histogram serialization (§4.2), realized
in the General form throughout (the spec offers Empty/Singleton/General
and does not pin the integer code; fixed 13-bit counts are used). -/
def writeHist (freqs : List ℕ) : List Bool :=
  freqs.foldr (fun cnt acc => writeVal 13 cnt ++ acc) []

/-- Modelled from the spec: the mirroring histogram reader (§4.2): `A`
counts of 13 bits each. -/
def readHist : ℕ → List Bool → List ℕ × List Bool
  | 0, stream => ([], stream)
  | a + 1, stream =>
    let r := readVal 13 stream
    let q := readHist a r.2
    (r.1 :: q.1, q.2)

theorem readHist_writeHist {freqs : List ℕ}
    (h : ∀ cnt ∈ freqs, cnt < 8192) (rest : List Bool) :
    readHist freqs.length (writeHist freqs ++ rest) = (freqs, rest) := by
  induction freqs with
  | nil => rfl
  | cons cnt cs ih =>
    have hc : cnt < 2 ^ 13 := by
      have := h cnt (by simp)
      norm_num
      omega
    show readHist (cs.length + 1)
      ((writeVal 13 cnt ++ writeHist cs) ++ rest) = _
    rw [List.append_assoc]
    simp only [readHist]
    rw [readVal_writeVal hc]
    simp only [ih (fun u hu => h u (by simp [hu]))]

/-- Modelled from the spec: `build_and_encode_histograms` + `write_tokens`
(§6 bit layout): `num_histograms - 1` as one zero bit (the merge always
produces `K = 1`, which §4.2 permits), the `K = 1` context-map zero flag
when `num_contexts > 1` (§4.4), the serialized distribution, the 32-bit
ANS initial state for the decoder — the encoder's final state — and the
interleaved ANS/raw body.  The ANS state starts at the canonical constant
`0x130000`. -/
def ansEncode (C A : ℕ) (T : List Token) : List Bool :=
  [false] ++ ((if 1 < C then [false] else [])
    ++ (writeHist (ansHist A T)
      ++ (writeVal 32 (encodeBody (ansHist A T) T 0x130000).1
        ++ (encodeBody (ansHist A T) T 0x130000).2)))

/-- Modelled from the spec: `decode_histograms` + `ans_reader` +
`read_symbol` per token + raw-bit reads (§6): mirrors the layout and
finally reports whether the ANS state equals the canonical constant
(`check_final_state`). -/
def ansDecode (C A : ℕ) (nbitsList : List ℕ) (stream : List Bool) :
    List (ℕ × ℕ) × Bool :=
  let s1 := (readVal 1 stream).2
  let s2 := if 1 < C then (readVal 1 s1).2 else s1
  let h := readHist A s2
  let st := readVal 32 h.2
  let d := decodeBody h.1 nbitsList st.1 st.2
  (d.1, decide (d.2.1 = 0x130000))

theorem buildCounts_getD {A : ℕ} (T : List Token) {s : ℕ} (hs : s < A) :
    (buildCounts A T).getD s 0
      = (T.filter (fun u => decide (u.symbol = s))).length := by
  rw [buildCounts, List.getD_eq_getElem _ _ (by
      rw [List.length_map, List.length_range]; exact hs),
    List.getElem_map, List.getElem_range]

/-- C1: for every valid token vector (context < C, symbol < A ≤ 4096,
`nbits ≤ 16`, `bits < 2^nbits`), encoding with the histogram build +
context merge + `WriteTokens` layer and decoding with the histogram
reader, one `ReadSymbol` per token and that token's raw-bit read returns
exactly the original (symbol, raw payload) pairs in order, and the final
ANS state check (`state = 0x130000`) passes. -/
theorem ans_roundtrip (C A : ℕ) (T : List Token) (hA : A ≤ 4096)
    (hT : ∀ t ∈ T, t.context < C ∧ t.symbol < A ∧ t.nbits ≤ 16 ∧
      t.bits < 2 ^ t.nbits) :
    ansDecode C A (T.map (fun t => t.nbits)) (ansEncode C A T)
      = (T.map (fun t => (t.symbol, t.bits)), true) := by
  have hlenC : (buildCounts A T).length = A := by
    rw [buildCounts, List.length_map, List.length_range]
  have hlenF : (ansHist A T).length = A := by
    rw [ansHist, normalize_length, hlenC]
  have hkA : (buildCounts A T).countP (fun c => decide (0 < c)) ≤ 4096 :=
    le_trans (le_trans (List.countP_le_length _) (le_of_eq hlenC)) hA
  have hbound : ∀ cnt ∈ ansHist A T, cnt < 8192 := by
    intro cnt hcnt
    rw [ansHist, normalize] at hcnt
    have := normGo_le (by omega) (buildCounts A T) false cnt hcnt
    omega
  have hcountpos : ∀ t ∈ T, 0 < (buildCounts A T).getD t.symbol 0 := by
    intro t ht
    rw [buildCounts_getD T (hT t ht).2.1]
    have hmem : t ∈ T.filter (fun u => decide (u.symbol = t.symbol)) :=
      List.mem_filter.mpr ⟨ht, by simp⟩
    exact List.length_pos_of_mem hmem
  have hkpos : ∀ t ∈ T,
      0 < (buildCounts A T).countP (fun c => decide (0 < c)) := by
    intro t ht
    have hlt : t.symbol < (buildCounts A T).length := by
      rw [hlenC]; exact (hT t ht).2.1
    refine List.countP_pos_iff.mpr ?_
    refine ⟨(buildCounts A T).get ⟨t.symbol, hlt⟩, List.get_mem _ _ _, ?_⟩
    have := hcountpos t ht
    rw [List.getD_eq_getElem _ _ hlt] at this
    simpa using this
  have htok : ∀ t ∈ T, t.symbol < (ansHist A T).length ∧
      1 ≤ (ansHist A T).getD t.symbol 0 ∧
      ansStart (ansHist A T) t.symbol + (ansHist A T).getD t.symbol 0
        ≤ 4096 ∧
      t.bits < 2 ^ t.nbits := by
    intro t ht
    have hsym : t.symbol < (ansHist A T).length := by
      rw [hlenF]; exact (hT t ht).2.1
    have hfreq : 1 ≤ (ansHist A T).getD t.symbol 0 := by
      rw [ansHist, normalize]
      exact normGo_pos (by omega) (buildCounts A T) false t.symbol
        (hcountpos t ht)
    have hstart : ansStart (ansHist A T) t.symbol
        + (ansHist A T).getD t.symbol 0 ≤ 4096 := by
      have h1 := getD_add_take_sum_le (l := ansHist A T) (s := t.symbol) hsym
      have hsum : (ansHist A T).sum = 4096 := by
        rw [ansHist]
        exact normalize_sum (hkpos t ht) hkA
      rw [hsum] at h1
      rw [ansStart]
      omega
    exact ⟨hsym, hfreq, hstart, (hT t ht).2.2.2⟩
  have hst1 : (2 : ℕ) ^ 16 ≤ 0x130000 := by norm_num
  have hst2 : (0x130000 : ℕ) < 2 ^ 32 := by norm_num
  have hrange := encodeBody_range T 0x130000
    (fun u hu => ⟨(htok u hu).1, (htok u hu).2.1, (htok u hu).2.2.1⟩)
    hst1 hst2
  have hbody := decodeBody_encodeBody T 0x130000 [] htok hst1 hst2
  rw [List.append_nil] at hbody
  have hhist := readHist_writeHist hbound
    (writeVal 32 (encodeBody (ansHist A T) T 0x130000).1
      ++ (encodeBody (ansHist A T) T 0x130000).2)
  rw [hlenF] at hhist
  have hread32 := readVal_writeVal (n := 32) hrange.2
    ((encodeBody (ansHist A T) T 0x130000).2)
  have hskip : ∀ X : List Bool, readVal 1 (false :: X) = (0, X) := by
    intro X
    simp [readVal]
  by_cases hC : 1 < C
  · simp only [ansDecode, ansEncode, if_pos hC, List.cons_append,
      List.nil_append, hskip, hhist, hread32, hbody]
    simp
  · simp only [ansDecode, ansEncode, if_neg hC, List.cons_append,
      List.nil_append, hskip, hhist, hread32, hbody]
    simp

/-- Witness for C1 at a concrete two-token vector with `C = 2`, `A = 8`. -/
theorem ans_roundtrip_witness :
    ansDecode 2 8 [0, 2] (ansEncode 2 8 [⟨0, 7, 0, 0⟩, ⟨1, 3, 2, 3⟩])
      = ([(7, 0), (3, 3)], true) :=
  ans_roundtrip 2 8 [⟨0, 7, 0, 0⟩, ⟨1, 3, 2, 3⟩] (by norm_num) (by decide)

end Jxl
